import Mathlib

/-!
# kyfk/broadcast: the Hub registry, the serial publish path and the worker pool

A shallow embedding of `broadcast.go` and `option.go`.

* A Go `error` is `Option Error`, `none` being `nil`.
* A `Subscriber` is an interface value.  Its three methods are the fields of the class
  `Subscriber`; the handle type `S` carries decidable equality, which is Go's `==` on
  interface values holding pointers, that is, handle identity.
* The hooks `Subscribe()` and `Unsubscribe()` and the published action `f` belong to the
  caller.  Their returned error is a function of the handle, and every invocation is
  recorded, in order, in the `calls` of the `Outcome` of the operation that made it.
* `map[ID][]Subscriber` is an association list with one entry for each key present; a
  key that is absent reads as the nil slice, `[]`.
* The mutex is not modelled: the operations of the Hub run one after the other.  The
  goroutines of one `Publish` are a transition system, see `Pool`.
* A `range` over the map yields its entries in an order that is an argument, `visit`.
-/

namespace Broadcast

/-- Go `error` values: `errors.New msg`, and `errors.Wrap cause msg` of pkg/errors. -/
inductive Error where
  | new (msg : String)
  | wrap (cause : Error) (msg : String)
  deriving DecidableEq, Repr

/-- The interface `Subscriber` of `broadcast.go`, lines 13 to 20. -/
class Subscriber (S : Type) (ID : outParam Type) where
  /-- The method `GetID() ID`. -/
  GetID : S → ID
  /-- The error returned by `Subscribe() error`. -/
  Subscribe : S → Option Error
  /-- The error returned by `Unsubscribe() error`. -/
  Unsubscribe : S → Option Error

/-- One invocation of caller code made by the Hub. -/
inductive Event (S : Type) where
  | subscribe (s : S)
  | unsubscribe (s : S)
  | action (s : S)
  deriving DecidableEq, Repr

/-- The struct `Hub` of `broadcast.go`, lines 23 to 29, without its mutex. -/
structure Hub (ID S : Type) where
  concurrency : Int
  allowDuplicableID : Bool
  subs : List (ID × List S)
  deriving DecidableEq, Repr

/-- What one Hub operation leaves behind: the returned error, the Hub afterwards, and the
hook and action invocations it made, in order. -/
structure Outcome (ID S : Type) where
  err : Option Error
  hub : Hub ID S
  calls : List (Event S)
  deriving DecidableEq, Repr

section Registry

variable {ID S : Type} [DecidableEq ID]

/-- The map read `m[id]`: the slice stored under `id`, the nil slice when `id` is absent. -/
def mapGet : List (ID × List S) → ID → List S
  | [], _ => []
  | (k, v) :: rest, id => if k = id then v else mapGet rest id

/-- The map write `m[id] = v`: replaces the slice of a key that is present, adds the key
otherwise. -/
def mapSet : List (ID × List S) → ID → List S → List (ID × List S)
  | [], id, v => [(id, v)]
  | (k, w) :: rest, id, v => if k = id then (k, v) :: rest else (k, w) :: mapSet rest id v

/-- The read `h.subs[id]`. -/
def Hub.get (h : Hub ID S) (id : ID) : List S :=
  mapGet h.subs id

/-- The method `setSubs` of `broadcast.go`, lines 31 to 35. -/
def Hub.setSubs (h : Hub ID S) (id : ID) (subs : List S) : Hub ID S :=
  { h with subs := mapSet h.subs id subs }

/-- The method `clearSubs` of `broadcast.go`, lines 37 to 41. -/
def Hub.clearSubs (h : Hub ID S) : Hub ID S :=
  { h with subs := [] }

end Registry

section Options

variable {ID S : Type}

/-- The type `Option` of `option.go`, line 4: `func(*Hub)`.  It is named `HubOption`
here because `Option` is Lean's own. -/
abbrev HubOption (ID S : Type) := Hub ID S → Hub ID S

/-- The option `Concurrency` of `option.go`, lines 8 to 12. -/
def Concurrency (n : Int) : HubOption ID S :=
  fun h => { h with concurrency := n }

/-- The option `AllowDuplicableID` of `option.go`, lines 18 to 22. -/
def AllowDuplicableID (b : Bool) : HubOption ID S :=
  fun h => { h with allowDuplicableID := b }

/-- The constructor `New` of `broadcast.go`, lines 44 to 54. -/
def New (options : List (HubOption ID S)) : Hub ID S :=
  options.foldl (fun h o => o h) { subs := [], concurrency := 5, allowDuplicableID := true }

end Options

section Operations

variable {ID S : Type} [DecidableEq ID] [DecidableEq S] [Subscriber S ID]

/-- The loop of `Subscribe`, lines 64 to 69: `Unsubscribe()` on each displaced handle in
turn, stopping at the first failure, whose error is returned wrapped. -/
def unsubscribeOld : List S → Option Error × List (Event S)
  | [] => (none, [])
  | ss :: rest =>
    match Subscriber.Unsubscribe ss with
    | some err => (some (Error.wrap err "unsubscribe error"), [Event.unsubscribe ss])
    | none =>
      let r := unsubscribeOld rest
      (r.1, Event.unsubscribe ss :: r.2)

/-- The method `Hub.Subscribe` of `broadcast.go`, lines 60 to 78. -/
def Hub.Subscribe (h : Hub ID S) (s : S) : Outcome ID S :=
  let id := Subscriber.GetID s
  let old := h.get id
  if !h.allowDuplicableID then
    match unsubscribeOld old with
    | (some err, calls) => ⟨some err, h, calls⟩
    | (none, calls) => ⟨none, h.setSubs id [s], calls⟩
  else
    match Subscriber.Subscribe s with
    | some err => ⟨some err, h, [Event.subscribe s]⟩
    | none => ⟨none, h.setSubs id (h.get id ++ [s]), [Event.subscribe s]⟩

/-- The loop of `Unsubscribe`, lines 83 to 90, with `k` iterations left, at index `i`.

`subs` is the local slice, whose length the `range` fixed on entry and whose elements
are read from the backing array at each iteration.  `append(subs[:i], subs[i+1:]...)`
has room in that array, so it writes there: the elements after `i` move one place down
and the last place keeps its value.  The loop has no `break`. -/
def unsubscribeLoop (s : S) : Nat → Nat → List S → Hub ID S → List (Event S) → Outcome ID S
  | 0, _, _, h, calls => ⟨none, h, calls⟩
  | k + 1, i, subs, h, calls =>
    match subs.get? i with
    | none => ⟨none, h, calls⟩
    | some ss =>
      if ss = s then
        match Subscriber.Unsubscribe s with
        | some err => ⟨some err, h, calls ++ [Event.unsubscribe s]⟩
        | none =>
          let kept := subs.take i ++ subs.drop (i + 1)
          let subs' := kept ++ subs.drop (subs.length - 1)
          unsubscribeLoop s k (i + 1) subs'
            { h with subs := mapSet h.subs (Subscriber.GetID s) kept }
            (calls ++ [Event.unsubscribe s])
      else
        unsubscribeLoop s k (i + 1) subs h calls

/-- The method `Hub.Unsubscribe` of `broadcast.go`, lines 81 to 92. -/
def Hub.Unsubscribe (h : Hub ID S) (s : S) : Outcome ID S :=
  let subs := h.get (Subscriber.GetID s)
  unsubscribeLoop s subs.length 0 subs h []

/-- The inner loop of `PublishTo`, lines 157 to 162: `f` on each handle in turn, stopping
at the first failure. -/
def publishSubs (f : S → Option Error) : List S → Option Error × List (Event S)
  | [] => (none, [])
  | s :: rest =>
    match f s with
    | some err => (some err, [Event.action s])
    | none =>
      let r := publishSubs f rest
      (r.1, Event.action s :: r.2)

/-- The outer loop of `PublishTo`, lines 156 to 163. -/
def publishIDs (h : Hub ID S) (f : S → Option Error) : List ID → Option Error × List (Event S)
  | [] => (none, [])
  | id :: rest =>
    match publishSubs f (h.get id) with
    | (some err, calls) => (some err, calls)
    | (none, calls) =>
      let r := publishIDs h f rest
      (r.1, calls ++ r.2)

/-- The method `Hub.PublishTo` of `broadcast.go`, lines 155 to 165. -/
def Hub.PublishTo (h : Hub ID S) (f : S → Option Error) (ids : List ID) : Outcome ID S :=
  let r := publishIDs h f ids
  ⟨r.1, h, r.2⟩

end Operations

/-! ## The subscriber of the tests -/

/-- The struct `stabSubscriber` of `broadcast_test.go`, lines 176 to 180.  The tests
subscribe pointers `&stabSubscriber{...}`, so `ptr` is the address the handle holds. -/
structure stabSubscriber where
  ptr : Nat
  id : String
  subscribeErr : Option Error
  unsubscribeErr : Option Error
  deriving DecidableEq, Repr

instance : Subscriber stabSubscriber String where
  GetID s := s.id
  Subscribe s := s.subscribeErr
  Unsubscribe s := s.unsubscribeErr

/-- The handle `subscriber1` of `TestUnsubscribe`, line 91. -/
def subscriber1 : stabSubscriber := ⟨1, "id1", none, none⟩

/-- The handle `subscriber2` of `TestUnsubscribe`, line 92. -/
def subscriber2 : stabSubscriber := ⟨2, "id1", none, none⟩

/-- The handle `subscriber3` of `TestUnsubscribe`, line 93: the fields of `subscriber1`
and `subscriber2` at another address. -/
def subscriber3 : stabSubscriber := ⟨3, "id1", none, none⟩

/-- The handle `subscriberErr` of `TestUnsubscribe`, line 106. -/
def subscriberErr : stabSubscriber := ⟨4, "id1", none, some (Error.new "error")⟩

/-- The handle of `TestSubscribe`, line 83, whose `Subscribe()` fails. -/
def subscriberSubErr : stabSubscriber := ⟨5, "id1", some (Error.new "error"), none⟩

/-- A handle registered under `"id2"`, as in `TestPublishTo`, line 139. -/
def subscriberID2 : stabSubscriber := ⟨6, "id2", none, none⟩

/-- The default Hub, `New()`, over the subscribers of the tests. -/
def hubDefault : Hub String stabSubscriber := New []

/-- The Hub `New(AllowDuplicableID(false))` of `TestSubscribe`, line 53. -/
def hubOverride : Hub String stabSubscriber := New [AllowDuplicableID false]

/-- A run of `Subscribe` calls, one for each handle of the list in turn: the Hub after the
last call, with the error each call returned. -/
def subscribeEach {ID S : Type} [DecidableEq ID] [Subscriber S ID]
    (h : Hub ID S) : List S → Hub ID S × List (Option Error)
  | [] => (h, [])
  | s :: rest =>
    let r := subscribeEach (h.Subscribe s).hub rest
    (r.1, (h.Subscribe s).err :: r.2)

/-! ## Terminate, and the start of Publish

A `range` over a Go map yields its entries in an order the language leaves open.  The
operations that range over `h.subs` take that order as `visit`, the entries as they are
yielded; it is a permutation of `h.subs`. -/

section MapRange

variable {ID S : Type} [DecidableEq ID] [Subscriber S ID]

/-- The inner loop of `Terminate`, lines 170 to 174: `Unsubscribe()` on each handle in
turn, stopping at the first failure, whose error is returned as it is. -/
def terminateSubs : List S → Option Error × List (Event S)
  | [] => (none, [])
  | ss :: rest =>
    match Subscriber.Unsubscribe ss with
    | some err => (some err, [Event.unsubscribe ss])
    | none =>
      let r := terminateSubs rest
      (r.1, Event.unsubscribe ss :: r.2)

/-- The outer loop of `Terminate`, lines 169 to 175, over the entries as yielded. -/
def terminateLoop : List (ID × List S) → Option Error × List (Event S)
  | [] => (none, [])
  | (_, s) :: rest =>
    match terminateSubs s with
    | (some err, calls) => (some err, calls)
    | (none, calls) =>
      let r := terminateLoop rest
      (r.1, calls ++ r.2)

/-- The method `Hub.Terminate` of `broadcast.go`, lines 168 to 178. -/
def Hub.Terminate (h : Hub ID S) (visit : List (ID × List S)) : Outcome ID S :=
  match terminateLoop visit with
  | (some err, calls) => ⟨some err, h, calls⟩
  | (none, calls) => ⟨none, h.clearSubs, calls⟩

/-- The number of registered entries, summed over all identities. -/
def Hub.total (h : Hub ID S) : Nat :=
  (h.subs.map (fun p => p.2.length)).sum

/-- The capacity `len(h.subs)` that `Publish` gives the channel `ch`, line 98, and the
channel `doneCh`, line 99: the number of identities present in the map. -/
def Hub.queueCap (h : Hub ID S) : Nat :=
  h.subs.length

/-- The sends `ch <- ss` of one identity, lines 105 to 107, on a channel of capacity
`cap` that holds `buf`.  No worker runs yet, so nothing receives: a send that finds the
channel full never completes, which is `none`. -/
def sendSubs (cap : Nat) : List S → List S → Option (List S)
  | buf, [] => some buf
  | buf, ss :: rest => if buf.length < cap then sendSubs cap (buf ++ [ss]) rest else none

/-- The loop of `Publish`, lines 104 to 109, over the entries as yielded: the channel
content and `count` at its end, or `none` when a send never completes. -/
def snapshotLoop (cap : Nat) : List (ID × List S) → List S → Nat → Option (List S × Nat)
  | [], buf, count => some (buf, count)
  | (_, s) :: rest, buf, count =>
    match sendSubs cap buf s with
    | none => none
    | some buf' => snapshotLoop cap rest buf' (count + s.length)

/-- How far `Publish` gets before it starts a worker. -/
inductive PublishStart (S : Type) where
  /-- A send at line 106 never completes: `Publish` does not return, and `f` is not
  invoked. -/
  | blocked
  /-- The return at line 115: `nil`, with no worker started and `f` not invoked. -/
  | returned
  /-- Line 118 is reached with `queue` in `ch` and `count` handles to deliver. -/
  | dispatch (queue : List S) (count : Nat)
  deriving DecidableEq, Repr

/-- The method `Hub.Publish` of `broadcast.go`, lines 96 to 116: the part that runs
before any worker is started. -/
def Hub.publishStart (h : Hub ID S) (visit : List (ID × List S)) : PublishStart S :=
  match snapshotLoop h.queueCap visit [] 0 with
  | none => PublishStart.blocked
  | some (queue, count) =>
    if count = 0 then PublishStart.returned else PublishStart.dispatch queue count

end MapRange

/-! ## The workers of Publish

From line 118 on `Publish` is the caller and `h.concurrency` worker goroutines, which
share the channels `ch`, `doneCh` and `errCh`.  A state of them is a `Pool`, and one
`Move` is one goroutine getting past the channel operation or the call it stands at; a
goroutine that cannot get past it has no move.  An execution is a list of moves, in
whatever order a scheduler takes them.  The channels are as Go has them: a receive from
the buffered `ch` or `doneCh` takes a value that is there, a send to `doneCh` needs room
in its buffer, and a send to the unbuffered `errCh` is taken by the `select` of the
caller.  The `select` with both cases ready takes either, both moves being there.  The
goroutines are followed until `Publish` returns. -/

/-- Where a worker, lines 119 to 133, stands. -/
inductive Worker (S : Type) where
  /-- At the receive `<-ch`, line 122. -/
  | receiving
  /-- Holding `s`, before the call `f(s)`, line 126. -/
  | calling (s : S)
  /-- At the send `errCh <- err`, line 127. -/
  | sendingErr (err : Error)
  /-- At the send to `doneCh`, line 130. -/
  | sendingDone
  /-- Past the `return` of line 128. -/
  | exited
  deriving DecidableEq, Repr

/-- Where the caller of `Publish` stands from line 136 on. -/
inductive Caller where
  /-- In the `select` of lines 138 to 149, with the value of the variable `done`. -/
  | selecting (done : Nat)
  /-- `Publish` has returned `err`, line 140 or 146. -/
  | returned (err : Option Error)
  deriving DecidableEq, Repr

/-- The caller, the workers and the channels of one `Publish`: the capacity of `doneCh`,
the variable `count`, the content of `ch`, the number of values in `doneCh`, and the
invocations of `f` so far. -/
structure Pool (S : Type) where
  cap : Nat
  count : Nat
  ch : List S
  doneCh : Nat
  workers : List (Worker S)
  caller : Caller
  calls : List (Event S)
  deriving DecidableEq, Repr

/-- One goroutine takes a step: the worker of index `i`, or the caller. -/
inductive Move where
  | worker (i : Nat)
  | caller
  deriving DecidableEq, Repr

/-- Lines 118 to 136: `h.concurrency` workers are started, none for a value below one,
and the caller enters its loop with `done` at zero. -/
def Hub.startWorkers {ID S : Type} (h : Hub ID S) (queue : List S) (count : Nat) : Pool S :=
  { cap := h.subs.length
    count := count
    ch := queue
    doneCh := 0
    workers := List.replicate h.concurrency.toNat Worker.receiving
    caller := Caller.selecting 0
    calls := [] }

/-- The move of worker `i`, lines 120 to 132, where it has one. -/
def Pool.stepWorker {S : Type} (f : S → Option Error) (p : Pool S) (i : Nat) :
    Option (Pool S) :=
  match p.workers.get? i with
  | none => none
  | some Worker.receiving =>
    match p.ch with
    | [] => none
    | s :: rest => some { p with ch := rest, workers := p.workers.set i (Worker.calling s) }
  | some (Worker.calling s) =>
    match f s with
    | some err =>
      some { p with calls := p.calls ++ [Event.action s]
                    workers := p.workers.set i (Worker.sendingErr err) }
    | none =>
      some { p with calls := p.calls ++ [Event.action s]
                    workers := p.workers.set i Worker.sendingDone }
  | some (Worker.sendingErr err) =>
    some { p with caller := Caller.returned (some err)
                  workers := p.workers.set i Worker.exited }
  | some Worker.sendingDone =>
    if p.doneCh < p.cap then
      some { p with doneCh := p.doneCh + 1, workers := p.workers.set i Worker.receiving }
    else none
  | some Worker.exited => none

/-- The move of the caller on the case `<-doneCh`, lines 141 to 148, where a value is
there.  The case `<-errCh` is the move of the worker that sends. -/
def Pool.stepCaller {S : Type} (p : Pool S) (done : Nat) : Option (Pool S) :=
  if p.doneCh = 0 then none
  else if done = p.count - 1 then
    some { p with doneCh := p.doneCh - 1, caller := Caller.returned none }
  else
    some { p with doneCh := p.doneCh - 1, caller := Caller.selecting (done + 1) }

/-- One move, `none` when the goroutine has none.  After the return of `Publish` no move
is followed. -/
def Pool.step {S : Type} (f : S → Option Error) (p : Pool S) : Move → Option (Pool S)
  | Move.worker i =>
    match p.caller with
    | Caller.selecting _ => p.stepWorker f i
    | Caller.returned _ => none
  | Move.caller =>
    match p.caller with
    | Caller.selecting done => p.stepCaller done
    | Caller.returned _ => none

/-- An execution: the moves of the list, one after the other; `none` when one of them
is not there to take. -/
def Pool.run {S : Type} (f : S → Option Error) : Pool S → List Move → Option (Pool S)
  | p, [] => some p
  | p, m :: rest =>
    match p.step f m with
    | none => none
    | some p' => Pool.run f p' rest

/-! ### What an execution of the workers keeps

The handles of `Publish` are each in one place: in `ch`, with a worker that holds one or
is about to report its call, in `doneCh`, or counted in `done`. -/

/-- One for a worker that holds a handle or has a call to report. -/
def Worker.pending {S : Type} : Worker S → Nat
  | Worker.receiving => 0
  | Worker.calling _ => 1
  | Worker.sendingErr _ => 1
  | Worker.sendingDone => 1
  | Worker.exited => 0

/-- One for a worker whose handle fails `f`, before or after the call. -/
def Worker.failing {S : Type} (f : S → Option Error) : Worker S → Nat
  | Worker.calling s => if (f s).isSome then 1 else 0
  | Worker.sendingErr _ => 1
  | _ => 0

/-- The moves a worker has ahead of it before it is back at the receive. -/
def Worker.weight {S : Type} : Worker S → Nat
  | Worker.receiving => 0
  | Worker.calling _ => 3
  | Worker.sendingErr _ => 2
  | Worker.sendingDone => 2
  | Worker.exited => 0

/-- The number of handles of a list on which `f` fails. -/
def failures {S : Type} (f : S → Option Error) (l : List S) : Nat :=
  l.countP (fun s => (f s).isSome)

/-- A bound on the moves a pool has left: it goes down with every move. -/
def Pool.measure {S : Type} (p : Pool S) : Nat :=
  4 * p.ch.length + (p.workers.map Worker.weight).sum + p.doneCh

/-- What a worker holds comes from the handles `q` that `Publish` sent to `ch`, and no
worker is past its `return` while the caller selects. -/
def Worker.Sound {S : Type} (f : S → Option Error) (q : List S) : Worker S → Prop
  | Worker.receiving => True
  | Worker.calling s => s ∈ q
  | Worker.sendingErr err => ∃ s ∈ q, f s = some err
  | Worker.sendingDone => True
  | Worker.exited => False

/-- What holds of a pool while the caller selects with the variable `done`, `q` being the
handles that `Publish` sent to `ch`. -/
structure Pool.Inv {S : Type} (f : S → Option Error) (q : List S) (p : Pool S) (done : Nat) :
    Prop where
  count_eq : p.count = q.length
  cap_pos : 1 ≤ p.cap
  done_lt : done < p.count
  placed : p.ch.length + (p.workers.map Worker.pending).sum + p.doneCh + done = p.count
  failing : failures f p.ch + (p.workers.map (Worker.failing f)).sum = failures f q
  ch_sub : ∀ s ∈ p.ch, s ∈ q
  held : ∀ w ∈ p.workers, Worker.Sound f q w

/-- What holds of a pool: `Pool.Inv` while the caller selects, and once `Publish` has
returned, `nil` only if `f` fails on no handle, and an error only if `f` gave it on one
of the handles. -/
def Pool.Good {S : Type} (f : S → Option Error) (q : List S) (p : Pool S) : Prop :=
  match p.caller with
  | Caller.selecting done => Pool.Inv f q p done
  | Caller.returned r =>
    (r = none → failures f q = 0) ∧ (∀ e, r = some e → ∃ s ∈ q, f s = some e)

/-- A handle registered under `"id3"`, as in `ExampleHub_Terminate`, line 158. -/
def subscriberID3 : stabSubscriber := ⟨7, "id3", none, none⟩

/-- A handle under `"id2"` whose `Unsubscribe()` fails. -/
def subscriberID2Err : stabSubscriber := ⟨8, "id2", none, some (Error.new "error2")⟩

/-- The Hub `New(Concurrency(0))`: `New` stores the value as it is given. -/
def hubNoWorker : Hub String stabSubscriber := New [Concurrency 0]

/-- The action of `TestPublish`, lines 130 to 132, which fails on every subscriber. -/
def actionErr : stabSubscriber → Option Error := fun _ => some (Error.new "error")

/-- The Hubs that calls of the functions of the package arrive at, each with the handles
passed to `Subscribe` on the way.  `New` is given the options of `option.go`.  `Publish`
reads `h.subs` and `h.concurrency` and writes nothing to the Hub, so a call of it,
whatever becomes of it, is at the Hub it started from. -/
inductive Reachable {ID S : Type} [DecidableEq ID] [DecidableEq S] [Subscriber S ID] :
    Hub ID S → List S → Prop where
  | new (options : List (HubOption ID S))
      (hopts : ∀ o ∈ options, (∃ n, o = Concurrency n) ∨ (∃ b, o = AllowDuplicableID b)) :
      Reachable (New options) []
  | subscribe {h : Hub ID S} {hist : List S} (s : S) :
      Reachable h hist → Reachable (h.Subscribe s).hub (hist ++ [s])
  | unsubscribe {h : Hub ID S} {hist : List S} (s : S) :
      Reachable h hist → Reachable (h.Unsubscribe s).hub hist
  | publish {h : Hub ID S} {hist : List S} (visit : List (ID × List S)) :
      visit.Perm h.subs → Reachable h hist → Reachable h hist
  | publishTo {h : Hub ID S} {hist : List S} (f : S → Option Error) (ids : List ID) :
      Reachable h hist → Reachable (h.PublishTo f ids).hub hist
  | terminate {h : Hub ID S} {hist : List S} (visit : List (ID × List S)) :
      visit.Perm h.subs → Reachable h hist → Reachable (h.Terminate visit).hub hist

/-! ## The registry map -/

section MapLemmas

variable {ID S : Type} [DecidableEq ID]

theorem mapGet_mapSet_same (m : List (ID × List S)) (id : ID) (v : List S) :
    mapGet (mapSet m id v) id = v := by
  induction m with
  | nil => simp [mapSet, mapGet]
  | cons p rest ih =>
    obtain ⟨k, w⟩ := p
    by_cases hk : k = id
    · simp [mapSet, mapGet, hk]
    · simp [mapSet, mapGet, hk, ih]

theorem mapGet_mapSet_other (m : List (ID × List S)) (id id' : ID) (v : List S)
    (hne : id' ≠ id) : mapGet (mapSet m id v) id' = mapGet m id' := by
  induction m with
  | nil => simp [mapSet, mapGet, Ne.symm hne]
  | cons p rest ih =>
    obtain ⟨k, w⟩ := p
    by_cases hk : k = id
    · subst hk
      simp [mapSet, mapGet, Ne.symm hne]
    · by_cases hk' : k = id'
      · subst hk'
        simp [mapSet, mapGet, hne]
      · simp [mapSet, mapGet, hk, hk', ih]

theorem Hub.get_setSubs_same (h : Hub ID S) (id : ID) (v : List S) :
    (h.setSubs id v).get id = v :=
  mapGet_mapSet_same h.subs id v

end MapLemmas

/-! ## Places of a slice around a removed handle -/

/-- A place of `pre ++ s :: post` before `s` holds a member of `pre`. -/
theorem get?_ne_of_not_mem_front {S : Type} (s : S) (pre post : List S) (hpre : s ∉ pre) :
    ∀ j, 0 ≤ j → j < 0 + pre.length → (pre ++ s :: post).get? j ≠ some s := by
  intro j _ hj heq
  have hj' : j < pre.length := by omega
  rw [List.get?_eq_getElem?, List.getElem?_append_left hj'] at heq
  exact hpre (List.getElem?_mem heq)

/-- After the removal at the place of `s`, the places of the local slice that the loop
has yet to visit hold members of `post` only. -/
theorem mem_post_of_mem_shifted {S : Type} (s : S) (post : List S) (x : S)
    (hx : x ∈ (post ++ (s :: post).drop post.length).drop 1) : x ∈ post := by
  cases post with
  | nil => simp at hx
  | cons p ps =>
    have hx' := List.mem_of_mem_drop hx
    rcases List.mem_append.mp hx' with hmem | hmem
    · exact hmem
    · have : (s :: p :: ps).drop (p :: ps).length = (p :: ps).drop ps.length := by simp
      rw [this] at hmem
      exact List.mem_of_mem_drop hmem

/-- The local slice after the removal of the only `s`: no place still to visit holds `s`. -/
theorem get?_shifted_ne {S : Type} (s : S) (pre post : List S) (hpost : s ∉ post) :
    ∀ j, pre.length + 1 ≤ j →
      (pre ++ post ++ (pre ++ s :: post).drop ((pre ++ s :: post).length - 1)).get? j
        ≠ some s := by
  intro j hj heq
  have hdrop : (pre ++ s :: post).drop ((pre ++ s :: post).length - 1)
      = (s :: post).drop post.length := by
    have : (pre ++ s :: post).length - 1 = pre.length + post.length := by simp
    rw [this, List.drop_append]
  rw [hdrop, List.append_assoc, List.get?_eq_getElem?,
    List.getElem?_append_right (by omega)] at heq
  have hsplit : j - pre.length = 1 + (j - pre.length - 1) := by omega
  rw [hsplit, ← List.getElem?_drop] at heq
  exact hpost (mem_post_of_mem_shifted s post s (List.getElem?_mem heq))

/-! ## The loop of `Unsubscribe` -/

section UnsubscribeLemmas

variable {ID S : Type} [DecidableEq ID] [DecidableEq S] [Subscriber S ID]

/-- Iterations over places that do not hold `s` change nothing. -/
theorem unsubscribeLoop_skip (s : S) (subs : List S) (h : Hub ID S) (calls : List (Event S)) :
    ∀ (m k i : Nat), (∀ j, i ≤ j → j < i + m → subs.get? j ≠ some s) → i + m ≤ subs.length →
      unsubscribeLoop s (m + k) i subs h calls = unsubscribeLoop s k (i + m) subs h calls := by
  intro m
  induction m with
  | zero => intro k i _ _; simp
  | succ m ih =>
    intro k i hno hlen
    have hi : i < subs.length := by omega
    have hget : subs.get? i = some (subs.get ⟨i, hi⟩) := List.get?_eq_get hi
    have hne : subs.get ⟨i, hi⟩ ≠ s := by
      intro heq
      exact hno i (Nat.le_refl i) (by omega) (by rw [hget, heq])
    have hk : m + 1 + k = (m + k) + 1 := by omega
    rw [hk, unsubscribeLoop, hget]
    simp only [hne, if_false]
    have := ih k (i + 1) (fun j h1 h2 => hno j (by omega) (by omega)) (by omega)
    rw [this]
    congr 1
    omega

/-- Once no place from `i` on holds `s`, the loop ends without a further effect. -/
theorem unsubscribeLoop_done (s : S) (subs : List S) (h : Hub ID S) (calls : List (Event S)) :
    ∀ (k i : Nat), (∀ j, i ≤ j → subs.get? j ≠ some s) →
      unsubscribeLoop s k i subs h calls = ⟨none, h, calls⟩ := by
  intro k
  induction k with
  | zero => intro i _; rfl
  | succ k ih =>
    intro i hno
    rw [unsubscribeLoop]
    cases hget : subs.get? i with
    | none => rfl
    | some ss =>
      have hne : ss ≠ s := by
        intro heq
        exact hno i (Nat.le_refl i) (by rw [hget, heq])
      simp only [hne, if_false]
      exact ih (i + 1) (fun j h1 => hno j (by omega))

/-- The loop up to the first place that holds `s`: the hook runs there, and its failure
ends the call with every earlier effect kept and nothing written. -/
theorem unsubscribeLoop_first (s : S) (pre post : List S) (h : Hub ID S) (hpre : s ∉ pre) :
    unsubscribeLoop s (pre ++ s :: post).length 0 (pre ++ s :: post) h [] =
      match Subscriber.Unsubscribe s with
      | some err => ⟨some err, h, [Event.unsubscribe s]⟩
      | none =>
        unsubscribeLoop s post.length (pre.length + 1)
          (pre ++ post ++ (pre ++ s :: post).drop ((pre ++ s :: post).length - 1))
          { h with subs := mapSet h.subs (Subscriber.GetID s) (pre ++ post) }
          [Event.unsubscribe s] := by
  have hlen : (pre ++ s :: post).length = pre.length + (post.length + 1) := by simp
  rw [hlen, unsubscribeLoop_skip s _ h [] pre.length (post.length + 1) 0
    (get?_ne_of_not_mem_front s pre post hpre) (by simp)]
  rw [unsubscribeLoop]
  have hget : (pre ++ s :: post).get? (0 + pre.length) = some s := by
    rw [List.get?_eq_getElem?, List.getElem?_append_right (by omega)]
    simp
  rw [hget]
  simp only [if_true, List.nil_append]
  cases Subscriber.Unsubscribe s with
  | some err => rfl
  | none =>
    simp only
    have h1 : List.take (0 + pre.length) (pre ++ s :: post) = pre := by simp
    have h2 : List.drop (0 + pre.length + 1) (pre ++ s :: post) = post := by simp
    rw [h1, h2, hlen]
    simp

end UnsubscribeLemmas

/-! ## The loops of `Subscribe` and `PublishTo` -/

/-- A list with a member satisfying `P` splits at the first such member. -/
theorem exists_first_split {S : Type} (P : S → Prop) :
    ∀ (l : List S), (∃ x ∈ l, P x) →
      ∃ pre x post, l = pre ++ x :: post ∧ (∀ y ∈ pre, ¬ P y) ∧ P x := by
  intro l
  induction l with
  | nil => intro hex; obtain ⟨x, hx, _⟩ := hex; simp at hx
  | cons a rest ih =>
    intro hex
    by_cases ha : P a
    · exact ⟨[], a, rest, rfl, by simp, ha⟩
    · obtain ⟨x, hx, hPx⟩ := hex
      have hxrest : x ∈ rest := by
        rcases List.mem_cons.mp hx with heq | hin
        · exact absurd (heq ▸ hPx) ha
        · exact hin
      obtain ⟨pre, y, post, hsplit, hpre, hy⟩ := ih ⟨x, hxrest, hPx⟩
      refine ⟨a :: pre, y, post, by rw [hsplit]; rfl, ?_, hy⟩
      intro z hz
      rcases List.mem_cons.mp hz with heq | hin
      · exact heq ▸ ha
      · exact hpre z hin

theorem unsubscribeOld_all_ok {ID S : Type} [Subscriber S ID] :
    ∀ (old : List S), (∀ ss ∈ old, Subscriber.Unsubscribe ss = none) →
      unsubscribeOld old = (none, old.map Event.unsubscribe) := by
  intro old
  induction old with
  | nil => intro _; rfl
  | cons a rest ih =>
    intro hok
    have ha : Subscriber.Unsubscribe a = none := hok a (List.mem_cons_self a rest)
    have hrest := ih (fun ss hss => hok ss (List.mem_cons_of_mem a hss))
    simp [unsubscribeOld, ha, hrest]

theorem unsubscribeOld_first_fail {ID S : Type} [Subscriber S ID] (x : S) (e : Error)
    (post : List S)
    (hx : Subscriber.Unsubscribe x = some e) :
    ∀ (pre : List S), (∀ y ∈ pre, Subscriber.Unsubscribe y = none) →
      unsubscribeOld (pre ++ x :: post)
        = (some (Error.wrap e "unsubscribe error"), (pre ++ [x]).map Event.unsubscribe) := by
  intro pre
  induction pre with
  | nil => intro _; simp [unsubscribeOld, hx]
  | cons a rest ih =>
    intro hok
    have ha : Subscriber.Unsubscribe a = none := hok a (List.mem_cons_self a rest)
    have hrest := ih (fun y hy => hok y (List.mem_cons_of_mem a hy))
    simp [unsubscribeOld, ha, hrest]

theorem publishSubs_all_ok {S : Type} (f : S → Option Error) :
    ∀ (l : List S), (∀ s ∈ l, f s = none) → publishSubs f l = (none, l.map Event.action) := by
  intro l
  induction l with
  | nil => intro _; rfl
  | cons a rest ih =>
    intro hok
    have ha : f a = none := hok a (List.mem_cons_self a rest)
    have hrest := ih (fun s hs => hok s (List.mem_cons_of_mem a hs))
    simp [publishSubs, ha, hrest]

theorem publishSubs_first_fail {S : Type} (f : S → Option Error) (x : S) (e : Error) (post : List S)
    (hx : f x = some e) :
    ∀ (pre : List S), (∀ y ∈ pre, f y = none) →
      publishSubs f (pre ++ x :: post) = (some e, (pre ++ [x]).map Event.action) := by
  intro pre
  induction pre with
  | nil => intro _; simp [publishSubs, hx]
  | cons a rest ih =>
    intro hok
    have ha : f a = none := hok a (List.mem_cons_self a rest)
    have hrest := ih (fun y hy => hok y (List.mem_cons_of_mem a hy))
    simp [publishSubs, ha, hrest]

/-- The inner loop over a concatenation is the inner loop over its first part, followed,
when that part raised no error, by the inner loop over the second. -/
theorem publishSubs_append {S : Type} (f : S → Option Error) (l₂ : List S) :
    ∀ (l₁ : List S), publishSubs f (l₁ ++ l₂) =
      match publishSubs f l₁ with
      | (some err, calls) => (some err, calls)
      | (none, calls) => ((publishSubs f l₂).1, calls ++ (publishSubs f l₂).2) := by
  intro l₁
  induction l₁ with
  | nil => simp [publishSubs]
  | cons a rest ih =>
    rw [List.cons_append]
    cases ha : f a with
    | some err => simp [publishSubs, ha]
    | none =>
      simp only [publishSubs, ha]
      rw [ih]
      rcases publishSubs f rest with ⟨_ | err, c⟩
      · simp
      · simp

/-- The nested loops of `PublishTo` are one loop over the concatenation of the sequences
registered under the listed identities. -/
theorem publishIDs_eq_publishSubs {ID S : Type} [DecidableEq ID] (h : Hub ID S) (f : S → Option Error) :
    ∀ (ids : List ID), publishIDs h f ids = publishSubs f (ids.map h.get).flatten := by
  intro ids
  induction ids with
  | nil => rfl
  | cons id rest ih =>
    simp only [publishIDs, List.map_cons, List.flatten_cons, publishSubs_append, ih]

/-- A successful `Subscribe` on a Hub that allows duplicate identities. -/
theorem Subscribe_append {ID S : Type} [DecidableEq ID] [Subscriber S ID] (h : Hub ID S)
    (s : S) (hcfg : h.allowDuplicableID = true) (hok : Subscriber.Subscribe s = none) :
    h.Subscribe s = ⟨none, h.setSubs (Subscriber.GetID s) (h.get (Subscriber.GetID s) ++ [s]),
      [Event.subscribe s]⟩ := by
  simp [Hub.Subscribe, hcfg, hok]

/-- Each `Subscribe` of a run appends to the sequence under the shared identity and keeps
what was there. -/
theorem subscribeEach_append {ID S : Type} [DecidableEq ID] [Subscriber S ID]
    (id : ID) :
    ∀ (ss : List S) (h : Hub ID S), h.allowDuplicableID = true →
      (∀ s ∈ ss, Subscriber.GetID s = id) → (∀ s ∈ ss, Subscriber.Subscribe s = none) →
      (subscribeEach h ss).1.get id = h.get id ++ ss ∧
        (subscribeEach h ss).2 = ss.map (fun _ => none) := by
  intro ss
  induction ss with
  | nil => intro h _ _ _; simp [subscribeEach]
  | cons a rest ih =>
    intro h hcfg hid hok
    have ha := Subscribe_append h a hcfg (hok a (List.mem_cons_self a rest))
    have haid : Subscriber.GetID a = id := hid a (List.mem_cons_self a rest)
    have hnext := ih (h.Subscribe a).hub (by rw [ha]; exact hcfg)
      (fun s hs => hid s (List.mem_cons_of_mem a hs))
      (fun s hs => hok s (List.mem_cons_of_mem a hs))
    simp only [subscribeEach, List.map_cons]
    refine ⟨?_, ?_⟩
    · rw [hnext.1, ha, haid]
      simp only
      rw [Hub.get_setSubs_same]
      simp
    · rw [hnext.2, ha]

/-! ## Unsubscribe -/

section UnsubscribeClaims

variable {ID S : Type} [DecidableEq ID] [DecidableEq S] [Subscriber S ID]

/-- C1, evaluated on the code.  On a default Hub, `Subscribe` of `subscriber1`,
`subscriber2`, `subscriber1`, `subscriber3` registers them under `"id1"` in that order.
`Unsubscribe(subscriber1)` then returns no error, has invoked `subscriber1.Unsubscribe()`
twice, and leaves `[subscriber2, subscriber3, subscriber3]` under `"id1"`: both entries of
`subscriber1` are gone and `subscriber3` is registered twice, where the claim keeps
`[subscriber2, subscriber1, subscriber3]`. -/
theorem Unsubscribe_twice_registered_eval :
    (subscribeEach hubDefault [subscriber1, subscriber2, subscriber1, subscriber3]).2
        = [none, none, none, none] ∧
      (subscribeEach hubDefault [subscriber1, subscriber2, subscriber1, subscriber3]).1.get "id1"
        = [subscriber1, subscriber2, subscriber1, subscriber3] ∧
      ((subscribeEach hubDefault
          [subscriber1, subscriber2, subscriber1, subscriber3]).1.Unsubscribe subscriber1).err
        = none ∧
      ((subscribeEach hubDefault
          [subscriber1, subscriber2, subscriber1, subscriber3]).1.Unsubscribe subscriber1).calls
        = [Event.unsubscribe subscriber1, Event.unsubscribe subscriber1] ∧
      ((subscribeEach hubDefault
          [subscriber1, subscriber2, subscriber1, subscriber3]).1.Unsubscribe
            subscriber1).hub.get "id1"
        = [subscriber2, subscriber3, subscriber3] ∧
      [subscriber1, subscriber2, subscriber1, subscriber3].erase subscriber1
        = [subscriber2, subscriber1, subscriber3] := by
  decide

/-- C2.  When `s` occurs exactly once in the sequence under `s.GetID()` and
`s.Unsubscribe()` succeeds, `Hub.Unsubscribe(s)` returns no error, invokes
`s.Unsubscribe()` exactly once and nothing else, and leaves under `s.GetID()` the old
sequence with `s` erased, the other handles in their order. -/
theorem Unsubscribe_single_occurrence (h : Hub ID S) (s : S)
    (hcount : (h.get (Subscriber.GetID s)).count s = 1)
    (hok : Subscriber.Unsubscribe s = none) :
    (h.Unsubscribe s).err = none ∧
      (h.Unsubscribe s).calls = [Event.unsubscribe s] ∧
      (h.Unsubscribe s).hub.get (Subscriber.GetID s) = (h.get (Subscriber.GetID s)).erase s ∧
      (h.Unsubscribe s).hub.get (Subscriber.GetID s)
        = (h.get (Subscriber.GetID s)).filter (fun x => decide (x ≠ s)) := by
  have hmem : s ∈ h.get (Subscriber.GetID s) := by
    apply List.count_pos_iff.mp
    omega
  obtain ⟨pre, post, hsplit, hpre⟩ := List.eq_append_cons_of_mem hmem
  have hpost : s ∉ post := by
    intro hin
    have hc : List.count s post ≥ 1 := List.count_pos_iff.mpr hin
    rw [hsplit, List.count_append, List.count_cons_self] at hcount
    omega
  have hrun : h.Unsubscribe s =
      ⟨none, { h with subs := mapSet h.subs (Subscriber.GetID s) (pre ++ post) },
        [Event.unsubscribe s]⟩ := by
    unfold Hub.Unsubscribe
    simp only
    rw [hsplit, unsubscribeLoop_first s pre post h hpre, hok]
    simp only
    exact unsubscribeLoop_done s _ _ _ post.length (pre.length + 1)
      (get?_shifted_ne s pre post hpost)
  have hget : (h.Unsubscribe s).hub.get (Subscriber.GetID s) = pre ++ post := by
    rw [hrun]
    exact mapGet_mapSet_same h.subs (Subscriber.GetID s) (pre ++ post)
  refine ⟨by rw [hrun], by rw [hrun], ?_, ?_⟩
  · rw [hget, hsplit, List.erase_append_right _ hpre, List.erase_cons_head]
  · rw [hget, hsplit, List.filter_append, List.filter_cons]
    have h1 : List.filter (fun x => decide (x ≠ s)) pre = pre :=
      List.filter_eq_self.mpr (fun x hx => by
        have : x ≠ s := fun hxs => hpre (hxs ▸ hx)
        simp [this])
    have h2 : List.filter (fun x => decide (x ≠ s)) post = post :=
      List.filter_eq_self.mpr (fun x hx => by
        have : x ≠ s := fun hxs => hpost (hxs ▸ hx)
        simp [this])
    rw [h1, h2]
    simp

/-- C2 on `TestUnsubscribe`, lines 101 and 102: `[subscriber1, subscriber2]` without
`subscriber2` is `[subscriber1]`. -/
theorem Unsubscribe_single_occurrence_witness :
    ((subscribeEach hubDefault [subscriber1, subscriber2]).1.get
        (Subscriber.GetID subscriber2)).count subscriber2 = 1 ∧
      ((subscribeEach hubDefault [subscriber1, subscriber2]).1.Unsubscribe subscriber2).err
        = none ∧
      ((subscribeEach hubDefault [subscriber1, subscriber2]).1.Unsubscribe subscriber2).calls
        = [Event.unsubscribe subscriber2] ∧
      ((subscribeEach hubDefault [subscriber1, subscriber2]).1.Unsubscribe
          subscriber2).hub.get "id1" = [subscriber1] := by
  have hcount : ((subscribeEach hubDefault [subscriber1, subscriber2]).1.get
      (Subscriber.GetID subscriber2)).count subscriber2 = 1 := by decide
  have hthm := Unsubscribe_single_occurrence
    (subscribeEach hubDefault [subscriber1, subscriber2]).1 subscriber2 hcount rfl
  refine ⟨hcount, hthm.1, hthm.2.1, ?_⟩
  have h3 := hthm.2.2.1
  rw [show (Subscriber.GetID subscriber2 : String) = "id1" from rfl] at h3
  rw [h3]
  decide

/-- C8.  When `s` does not occur in the sequence under `s.GetID()`, handles being
compared by identity, `Hub.Unsubscribe(s)` returns no error, invokes no hook and leaves
the Hub as it was. -/
theorem Unsubscribe_absent (h : Hub ID S) (s : S)
    (habs : s ∉ h.get (Subscriber.GetID s)) :
    h.Unsubscribe s = ⟨none, h, []⟩ := by
  unfold Hub.Unsubscribe
  simp only
  apply unsubscribeLoop_done
  intro j _ heq
  exact habs (List.get?_mem heq)

/-- C8 on `TestUnsubscribe`, lines 98 and 99: `subscriber3` has the field values of the
two registered handles and is neither of them. -/
theorem Unsubscribe_absent_witness :
    subscriber3 ∉ (subscribeEach hubDefault [subscriber1, subscriber2]).1.get
        (Subscriber.GetID subscriber3) ∧
      (subscribeEach hubDefault [subscriber1, subscriber2]).1.Unsubscribe subscriber3
        = ⟨none, (subscribeEach hubDefault [subscriber1, subscriber2]).1, []⟩ ∧
      (subscribeEach hubDefault [subscriber1, subscriber2]).1.get "id1"
        = [subscriber1, subscriber2] :=
  ⟨by decide,
    Unsubscribe_absent (subscribeEach hubDefault [subscriber1, subscriber2]).1 subscriber3
      (by decide),
    by decide⟩

/-- C9.  When `s` occurs in the sequence under `s.GetID()` and `s.Unsubscribe()` fails
with `e`, `Hub.Unsubscribe(s)` returns `e` after that one invocation and leaves the Hub
as it was, `s` still registered. -/
theorem Unsubscribe_keeps_on_failed_hook (h : Hub ID S) (s : S) (e : Error)
    (hmem : s ∈ h.get (Subscriber.GetID s))
    (hfail : Subscriber.Unsubscribe s = some e) :
    (h.Unsubscribe s).err = some e ∧
      (h.Unsubscribe s).hub = h ∧
      (h.Unsubscribe s).calls = [Event.unsubscribe s] ∧
      s ∈ (h.Unsubscribe s).hub.get (Subscriber.GetID s) := by
  obtain ⟨pre, post, hsplit, hpre⟩ := List.eq_append_cons_of_mem hmem
  have hrun : h.Unsubscribe s = ⟨some e, h, [Event.unsubscribe s]⟩ := by
    unfold Hub.Unsubscribe
    simp only
    rw [hsplit, unsubscribeLoop_first s pre post h hpre, hfail]
  rw [hrun]
  exact ⟨rfl, rfl, rfl, hmem⟩

/-- C9 on `TestUnsubscribe`, lines 105 to 108. -/
theorem Unsubscribe_keeps_on_failed_hook_witness :
    subscriberErr ∈ (subscribeEach hubDefault [subscriberErr]).1.get
        (Subscriber.GetID subscriberErr) ∧
      ((subscribeEach hubDefault [subscriberErr]).1.Unsubscribe subscriberErr).err
        = some (Error.new "error") ∧
      ((subscribeEach hubDefault [subscriberErr]).1.Unsubscribe subscriberErr).hub
        = (subscribeEach hubDefault [subscriberErr]).1 :=
  have hthm := Unsubscribe_keeps_on_failed_hook (subscribeEach hubDefault [subscriberErr]).1
    subscriberErr (Error.new "error") (by decide) rfl
  ⟨by decide, hthm.1, hthm.2.1⟩

end UnsubscribeClaims

/-! ## Subscribe -/

section SubscribeClaims

variable {ID S : Type} [DecidableEq ID] [Subscriber S ID]

/-- C3.  On a fresh Hub that allows duplicate identities, `Subscribe` of handles
`s1, ..., sn` that share the identity `id` and whose `Subscribe()` hooks succeed returns
no error at any call and leaves under `id` the sequence `[s1, ..., sn]`, the handles in
call order.  The handles need not even be distinct. -/
theorem Subscribe_call_order (h : Hub ID S) (ss : List S) (id : ID)
    (hcfg : h.allowDuplicableID = true) (hfresh : h.subs = [])
    (hid : ∀ s ∈ ss, Subscriber.GetID s = id)
    (hok : ∀ s ∈ ss, Subscriber.Subscribe s = none) :
    (subscribeEach h ss).2 = ss.map (fun _ => none) ∧ (subscribeEach h ss).1.get id = ss := by
  have happ := subscribeEach_append id ss h hcfg hid hok
  refine ⟨happ.2, ?_⟩
  rw [happ.1]
  simp [Hub.get, hfresh, mapGet]

/-- C3 on `TestSubscribe`, lines 73 to 80. -/
theorem Subscribe_call_order_witness :
    (New [AllowDuplicableID true] : Hub String stabSubscriber).allowDuplicableID = true ∧
      (New [AllowDuplicableID true] : Hub String stabSubscriber).subs = [] ∧
      [subscriber1, subscriber2].Nodup ∧
      (subscribeEach (New [AllowDuplicableID true]) [subscriber1, subscriber2]).1.get "id1"
        = [subscriber1, subscriber2] :=
  ⟨rfl, rfl, by decide,
    (Subscribe_call_order (New [AllowDuplicableID true]) [subscriber1, subscriber2] "id1"
      rfl rfl (by decide) (by decide)).2⟩

/-- C4.  On a Hub that does not allow duplicate identities, when every handle registered
under `id` succeeds at `Unsubscribe()`, `Subscribe(s)` with `s.GetID() = id` returns no
error, invokes `Unsubscribe()` on each of those handles in sequence order and nothing
else, and leaves `[s]` under `id`. -/
theorem Subscribe_displaces_old (h : Hub ID S) (s : S) (id : ID)
    (hcfg : h.allowDuplicableID = false) (hid : Subscriber.GetID s = id)
    (hok : ∀ ss ∈ h.get id, Subscriber.Unsubscribe ss = none) :
    (h.Subscribe s).err = none ∧
      (h.Subscribe s).calls = (h.get id).map Event.unsubscribe ∧
      (h.Subscribe s).calls.length = (h.get id).length ∧
      (h.Subscribe s).hub.get id = [s] := by
  have hrun : h.Subscribe s = ⟨none, h.setSubs id [s], (h.get id).map Event.unsubscribe⟩ := by
    simp [Hub.Subscribe, hcfg, hid, unsubscribeOld_all_ok (h.get id) hok]
  rw [hrun]
  exact ⟨rfl, rfl, by simp, Hub.get_setSubs_same h id [s]⟩

/-- C4 on `TestSubscribe`, lines 55 to 60: `subscriber2` displaces `subscriber1`. -/
theorem Subscribe_displaces_old_witness :
    (subscribeEach hubOverride [subscriber1]).1.allowDuplicableID = false ∧
      (subscribeEach hubOverride [subscriber1]).1.get "id1" = [subscriber1] ∧
      ((subscribeEach hubOverride [subscriber1]).1.Subscribe subscriber2).err = none ∧
      ((subscribeEach hubOverride [subscriber1]).1.Subscribe subscriber2).calls
        = ((subscribeEach hubOverride [subscriber1]).1.get "id1").map Event.unsubscribe ∧
      ((subscribeEach hubOverride [subscriber1]).1.Subscribe subscriber2).hub.get "id1"
        = [subscriber2] :=
  have hthm := Subscribe_displaces_old (subscribeEach hubOverride [subscriber1]).1 subscriber2
    "id1" rfl rfl (by decide)
  ⟨rfl, by decide, hthm.1, hthm.2.1, hthm.2.2.2⟩

/-- C5.  On a Hub that does not allow duplicate identities, when some handle registered
under `s.GetID()` fails at `Unsubscribe()`, `Subscribe(s)` returns an error, the wrapped
error of the first handle that fails, leaves the Hub as it was, `s` not installed, and
has invoked `Unsubscribe()` on the handles up to and including that first failing one
and on none after it. -/
theorem Subscribe_aborts_on_failed_displacement (h : Hub ID S) (s : S)
    (hcfg : h.allowDuplicableID = false)
    (hfail : ∃ x ∈ h.get (Subscriber.GetID s), Subscriber.Unsubscribe x ≠ none) :
    (h.Subscribe s).err ≠ none ∧
      (h.Subscribe s).hub = h ∧
      ∃ pre x post e, h.get (Subscriber.GetID s) = pre ++ x :: post ∧
        (∀ y ∈ pre, Subscriber.Unsubscribe y = none) ∧
        Subscriber.Unsubscribe x = some e ∧
        (h.Subscribe s).err = some (Error.wrap e "unsubscribe error") ∧
        (h.Subscribe s).calls = (pre ++ [x]).map Event.unsubscribe := by
  obtain ⟨pre, x, post, hsplit, hpre, hx⟩ :=
    exists_first_split (fun y : S => Subscriber.Unsubscribe y ≠ none) _ hfail
  have hpre' : ∀ y ∈ pre, Subscriber.Unsubscribe y = none :=
    fun y hy => not_not.mp (hpre y hy)
  obtain ⟨e, he⟩ := Option.ne_none_iff_exists'.mp hx
  have hrun : h.Subscribe s
      = ⟨some (Error.wrap e "unsubscribe error"), h, (pre ++ [x]).map Event.unsubscribe⟩ := by
    simp only [Hub.Subscribe, hcfg, hsplit, unsubscribeOld_first_fail x e post he pre hpre']
    rfl
  rw [hrun]
  exact ⟨by simp, rfl, pre, x, post, e, hsplit, hpre', he, rfl, rfl⟩

/-- C5 on `TestSubscribe`, lines 63 to 68: `subscriberErr` is registered and fails at
`Unsubscribe()`, so `subscriber2` is not installed. -/
theorem Subscribe_aborts_on_failed_displacement_witness :
    (subscribeEach hubOverride [subscriberErr]).1.allowDuplicableID = false ∧
      (subscribeEach hubOverride [subscriberErr]).1.get "id1" = [subscriberErr] ∧
      ((subscribeEach hubOverride [subscriberErr]).1.Subscribe subscriber2).err ≠ none ∧
      ((subscribeEach hubOverride [subscriberErr]).1.Subscribe subscriber2).hub
        = (subscribeEach hubOverride [subscriberErr]).1 ∧
      ((subscribeEach hubOverride [subscriberErr]).1.Subscribe subscriber2).hub.get "id1"
        = [subscriberErr] ∧
      ((subscribeEach hubOverride [subscriberErr]).1.Subscribe subscriber2).calls
        = [Event.unsubscribe subscriberErr] :=
  have hthm := Subscribe_aborts_on_failed_displacement (subscribeEach hubOverride [subscriberErr]).1
    subscriber2 rfl ⟨subscriberErr, by decide, by decide⟩
  ⟨rfl, by decide, hthm.1, hthm.2.1, by decide, by decide⟩

/-- C6.  On a Hub that allows duplicate identities, when `s.Subscribe()` fails with `e`,
`Subscribe(s)` returns `e`, leaves the Hub as it was, and has invoked that one hook and
no other. -/
theorem Subscribe_rejects_failed_hook (h : Hub ID S) (s : S) (e : Error)
    (hcfg : h.allowDuplicableID = true) (hfail : Subscriber.Subscribe s = some e) :
    h.Subscribe s = ⟨some e, h, [Event.subscribe s]⟩ := by
  simp [Hub.Subscribe, hcfg, hfail]

/-- C6 on `TestSubscribe`, lines 82 to 85, after a first handle was subscribed. -/
theorem Subscribe_rejects_failed_hook_witness :
    (subscribeEach hubDefault [subscriber1]).1.allowDuplicableID = true ∧
      (subscribeEach hubDefault [subscriber1]).1.Subscribe subscriberSubErr
        = ⟨some (Error.new "error"), (subscribeEach hubDefault [subscriber1]).1,
            [Event.subscribe subscriberSubErr]⟩ :=
  ⟨rfl, Subscribe_rejects_failed_hook (subscribeEach hubDefault [subscriber1]).1 subscriberSubErr
    (Error.new "error") rfl rfl⟩

/-- C7, evaluated on the code.  On the Hub `New(AllowDuplicableID(false))`,
`Subscribe(subscriber1)` returns no error and registers `subscriber1` without any hook
invoked, and the following `Subscribe(subscriber2)` returns no error and registers
`subscriber2` having invoked `subscriber1.Unsubscribe()` only: on this path
`Subscribe()` of the new handle is invoked zero times, where the claim has it invoked
once. -/
theorem Subscribe_without_hook_eval :
    hubOverride.allowDuplicableID = false ∧
      (hubOverride.Subscribe subscriber1).err = none ∧
      (hubOverride.Subscribe subscriber1).hub.get "id1" = [subscriber1] ∧
      (hubOverride.Subscribe subscriber1).calls = [] ∧
      ((hubOverride.Subscribe subscriber1).hub.Subscribe subscriber2).err = none ∧
      ((hubOverride.Subscribe subscriber1).hub.Subscribe subscriber2).hub.get "id1"
        = [subscriber2] ∧
      ((hubOverride.Subscribe subscriber1).hub.Subscribe subscriber2).calls
        = [Event.unsubscribe subscriber1] ∧
      ((hubOverride.Subscribe subscriber1).hub.Subscribe subscriber2).calls.count
        (Event.subscribe subscriber2) = 0 := by
  decide

end SubscribeClaims

/-! ## PublishTo -/

section PublishToClaims

variable {ID S : Type} [DecidableEq ID]

/-- C10.  Let `L` be the concatenation, over `ids` in order, of the sequences registered
under each identity, an absent identity adding nothing.  `PublishTo(f, ids...)` leaves
the Hub as it was.  When `f` fails on no element of `L` it invokes `f` on all of `L` in
order and returns no error.  When `x` is the first element of `L` on which `f` fails,
with error `e`, it invokes `f` on the elements of `L` in order up to and including `x`,
on none after it, and returns `e`. -/
theorem PublishTo_serial (h : Hub ID S) (f : S → Option Error) (ids : List ID) :
    (h.PublishTo f ids).hub = h ∧
      ((∀ s ∈ (ids.map h.get).flatten, f s = none) →
        (h.PublishTo f ids).err = none ∧
          (h.PublishTo f ids).calls = (ids.map h.get).flatten.map Event.action) ∧
      (∀ (pre : List S) (x : S) (post : List S) (e : Error),
        (ids.map h.get).flatten = pre ++ x :: post → (∀ y ∈ pre, f y = none) → f x = some e →
        (h.PublishTo f ids).err = some e ∧
          (h.PublishTo f ids).calls = (pre ++ [x]).map Event.action) := by
  refine ⟨rfl, ?_, ?_⟩
  · intro hok
    have hrun : publishIDs h f ids = (none, (ids.map h.get).flatten.map Event.action) := by
      rw [publishIDs_eq_publishSubs, publishSubs_all_ok f _ hok]
    unfold Hub.PublishTo
    rw [hrun]
    exact ⟨rfl, rfl⟩
  · intro pre x post e hsplit hpre hx
    have hrun : publishIDs h f ids = (some e, (pre ++ [x]).map Event.action) := by
      rw [publishIDs_eq_publishSubs, hsplit, publishSubs_first_fail f x e post hx pre hpre]
    unfold Hub.PublishTo
    rw [hrun]
    exact ⟨rfl, rfl⟩

/-- C10 on a Hub with `subscriber1` and `subscriber2` under `"id1"` and `subscriberID2`
under `"id2"`: over the identities `"id1"`, `"none"`, `"id2"`, an action that fails on
no handle visits all three in order, and an action that fails on `subscriber2` visits
`subscriber1` and `subscriber2` only and returns that error. -/
theorem PublishTo_serial_witness :
    ((subscribeEach hubDefault [subscriber1, subscriberID2, subscriber2]).1.PublishTo
        (fun _ => none) ["id1", "none", "id2"]).err = none ∧
      ((subscribeEach hubDefault [subscriber1, subscriberID2, subscriber2]).1.PublishTo
        (fun _ => none) ["id1", "none", "id2"]).calls
        = [Event.action subscriber1, Event.action subscriber2, Event.action subscriberID2] ∧
      ((subscribeEach hubDefault [subscriber1, subscriberID2, subscriber2]).1.PublishTo
        (fun s => if s = subscriber2 then some (Error.new "error") else none)
        ["id1", "none", "id2"]).err = some (Error.new "error") ∧
      ((subscribeEach hubDefault [subscriber1, subscriberID2, subscriber2]).1.PublishTo
        (fun s => if s = subscriber2 then some (Error.new "error") else none)
        ["id1", "none", "id2"]).calls
        = [Event.action subscriber1, Event.action subscriber2] :=
  have hok := (PublishTo_serial
    (subscribeEach hubDefault [subscriber1, subscriberID2, subscriber2]).1
    (fun _ => none) ["id1", "none", "id2"]).2.1 (fun _ _ => rfl)
  have hfail := (PublishTo_serial
    (subscribeEach hubDefault [subscriber1, subscriberID2, subscriber2]).1
    (fun s => if s = subscriber2 then some (Error.new "error") else none)
    ["id1", "none", "id2"]).2.2 [subscriber1] subscriber2 [subscriberID2] (Error.new "error")
    (by decide) (by decide) (by decide)
  ⟨hok.1, by rw [hok.2]; decide, hfail.1, hfail.2⟩

end PublishToClaims

/-! ## Terminate -/

theorem terminateSubs_all_ok {ID S : Type} [Subscriber S ID] :
    ∀ (l : List S), (∀ x ∈ l, Subscriber.Unsubscribe x = none) →
      terminateSubs l = (none, l.map Event.unsubscribe) := by
  intro l
  induction l with
  | nil => intro _; rfl
  | cons a rest ih =>
    intro hok
    have ha : Subscriber.Unsubscribe a = none := hok a (List.mem_cons_self a rest)
    have hrest := ih (fun x hx => hok x (List.mem_cons_of_mem a hx))
    simp [terminateSubs, ha, hrest]

theorem terminateSubs_first_fail {ID S : Type} [Subscriber S ID] (x : S) (e : Error)
    (post : List S) (hx : Subscriber.Unsubscribe x = some e) :
    ∀ (pre : List S), (∀ y ∈ pre, Subscriber.Unsubscribe y = none) →
      terminateSubs (pre ++ x :: post) = (some e, (pre ++ [x]).map Event.unsubscribe) := by
  intro pre
  induction pre with
  | nil => intro _; simp [terminateSubs, hx]
  | cons a rest ih =>
    intro hok
    have ha : Subscriber.Unsubscribe a = none := hok a (List.mem_cons_self a rest)
    have hrest := ih (fun y hy => hok y (List.mem_cons_of_mem a hy))
    simp [terminateSubs, ha, hrest]

theorem terminateSubs_append {ID S : Type} [Subscriber S ID] (l₂ : List S) :
    ∀ (l₁ : List S), terminateSubs (l₁ ++ l₂) =
      match terminateSubs l₁ with
      | (some err, calls) => (some err, calls)
      | (none, calls) => ((terminateSubs l₂).1, calls ++ (terminateSubs l₂).2) := by
  intro l₁
  induction l₁ with
  | nil => simp [terminateSubs]
  | cons a rest ih =>
    rw [List.cons_append]
    cases ha : Subscriber.Unsubscribe a with
    | some err => simp [terminateSubs, ha]
    | none =>
      simp only [terminateSubs, ha]
      rw [ih]
      rcases terminateSubs rest with ⟨_ | err, c⟩
      · simp
      · simp

/-- The nested loops of `Terminate` are one loop over the concatenation of the sequences
in the order the entries are yielded. -/
theorem terminateLoop_eq_terminateSubs {ID S : Type} [Subscriber S ID] :
    ∀ (visit : List (ID × List S)),
      terminateLoop visit = terminateSubs (visit.map Prod.snd).flatten := by
  intro visit
  induction visit with
  | nil => rfl
  | cons p rest ih =>
    obtain ⟨k, v⟩ := p
    simp only [terminateLoop, List.map_cons, List.flatten_cons, terminateSubs_append, ih]

/-- A handle of the flattened visit is a handle of an entry of the map. -/
theorem mem_entry_of_mem_flatten {ID S : Type} (visit m : List (ID × List S))
    (hperm : visit.Perm m) (x : S) (hx : x ∈ (visit.map Prod.snd).flatten) :
    ∃ p ∈ m, x ∈ p.2 := by
  obtain ⟨l, hl, hxl⟩ := List.mem_flatten.mp hx
  obtain ⟨p, hp, rfl⟩ := List.mem_map.mp hl
  exact ⟨p, hperm.mem_iff.mp hp, hxl⟩

theorem publishIDs_of_empty {ID S : Type} [DecidableEq ID] (h : Hub ID S)
    (f : S → Option Error) (hempty : h.subs = []) :
    ∀ (ids : List ID), publishIDs h f ids = (none, []) := by
  intro ids
  induction ids with
  | nil => rfl
  | cons id rest ih => simp [publishIDs, Hub.get, hempty, mapGet, publishSubs, ih]

section TerminateClaims

variable {ID S : Type} [Subscriber S ID]

/-- C12.  When the `Unsubscribe()` hook of every registered handle succeeds,
`Terminate()`, in whatever order the map yields its entries, returns no error and invokes
`Unsubscribe()` once for every registered entry and nothing else.  Afterwards the map is
empty: `PublishTo` returns no error without invoking its action, and `Publish` returns
`nil` before it starts a worker, its action not invoked. -/
theorem Terminate_clears_registry [DecidableEq ID] (h : Hub ID S)
    (visit : List (ID × List S)) (hperm : visit.Perm h.subs)
    (hok : ∀ p ∈ h.subs, ∀ x ∈ p.2, Subscriber.Unsubscribe x = none) :
    (h.Terminate visit).err = none ∧
      (h.Terminate visit).calls = (visit.map Prod.snd).flatten.map Event.unsubscribe ∧
      (h.Terminate visit).calls.Perm ((h.subs.map Prod.snd).flatten.map Event.unsubscribe) ∧
      (h.Terminate visit).hub.subs = [] ∧
      (∀ (f : S → Option Error) (ids : List ID),
        ((h.Terminate visit).hub.PublishTo f ids).err = none ∧
          ((h.Terminate visit).hub.PublishTo f ids).calls = []) ∧
      (∀ visit', visit'.Perm (h.Terminate visit).hub.subs →
        (h.Terminate visit).hub.publishStart visit' = PublishStart.returned) := by
  have hall : ∀ x ∈ (visit.map Prod.snd).flatten, Subscriber.Unsubscribe x = none := by
    intro x hx
    obtain ⟨p, hp, hxp⟩ := mem_entry_of_mem_flatten visit h.subs hperm x hx
    exact hok p hp x hxp
  have hrun : h.Terminate visit
      = ⟨none, h.clearSubs, (visit.map Prod.snd).flatten.map Event.unsubscribe⟩ := by
    simp only [Hub.Terminate, terminateLoop_eq_terminateSubs, terminateSubs_all_ok _ hall]
  rw [hrun]
  refine ⟨rfl, rfl, ?_, rfl, ?_, ?_⟩
  · exact ((hperm.map Prod.snd).flatten).map Event.unsubscribe
  · intro f ids
    have hpub := publishIDs_of_empty h.clearSubs f rfl ids
    unfold Hub.PublishTo
    rw [hpub]
    exact ⟨rfl, rfl⟩
  · intro visit' hperm'
    have hnil : visit' = [] := List.Perm.eq_nil hperm'
    rw [hnil]
    rfl

/-- C12 on `ExampleHub_Terminate`, lines 155 to 160, the entries yielded from `"id3"`
on. -/
theorem Terminate_clears_registry_witness :
    ((subscribeEach hubDefault [subscriber1, subscriberID2, subscriberID3]).1.Terminate
        [("id3", [subscriberID3]), ("id1", [subscriber1]), ("id2", [subscriberID2])]).err
        = none ∧
      ((subscribeEach hubDefault [subscriber1, subscriberID2, subscriberID3]).1.Terminate
        [("id3", [subscriberID3]), ("id1", [subscriber1]), ("id2", [subscriberID2])]).calls.length
        = 3 ∧
      ((subscribeEach hubDefault [subscriber1, subscriberID2, subscriberID3]).1.Terminate
        [("id3", [subscriberID3]), ("id1", [subscriber1]), ("id2", [subscriberID2])]).hub.subs
        = [] :=
  have hthm := Terminate_clears_registry
    (subscribeEach hubDefault [subscriber1, subscriberID2, subscriberID3]).1
    [("id3", [subscriberID3]), ("id1", [subscriber1]), ("id2", [subscriberID2])]
    (by decide) (by decide)
  ⟨hthm.1, by rw [hthm.2.1]; decide, hthm.2.2.2.1⟩

/-- C13.  When the `Unsubscribe()` hook of some registered handle fails, `Terminate()`,
in whatever order the map yields its entries, returns, as it is, the error of the first
failing handle it comes to, has invoked `Unsubscribe()` on the handles up to and
including that one and on none after it, and leaves the Hub, its map included, as it
was. -/
theorem Terminate_stops_at_first_failure (h : Hub ID S) (visit : List (ID × List S))
    (hperm : visit.Perm h.subs)
    (hfail : ∃ p ∈ h.subs, ∃ x ∈ p.2, Subscriber.Unsubscribe x ≠ none) :
    (h.Terminate visit).err ≠ none ∧
      (h.Terminate visit).hub = h ∧
      ∃ pre x post e, (visit.map Prod.snd).flatten = pre ++ x :: post ∧
        (∀ y ∈ pre, Subscriber.Unsubscribe y = none) ∧
        Subscriber.Unsubscribe x = some e ∧
        (h.Terminate visit).err = some e ∧
        (h.Terminate visit).calls = (pre ++ [x]).map Event.unsubscribe := by
  obtain ⟨p, hp, x, hxp, hx⟩ := hfail
  have hmem : x ∈ (visit.map Prod.snd).flatten :=
    List.mem_flatten.mpr ⟨p.2, List.mem_map.mpr ⟨p, hperm.mem_iff.mpr hp, rfl⟩, hxp⟩
  obtain ⟨pre, y, post, hsplit, hpre, hy⟩ :=
    exists_first_split (fun z : S => Subscriber.Unsubscribe z ≠ none) _ ⟨x, hmem, hx⟩
  have hpre' : ∀ z ∈ pre, Subscriber.Unsubscribe z = none :=
    fun z hz => not_not.mp (hpre z hz)
  obtain ⟨e, he⟩ := Option.ne_none_iff_exists'.mp hy
  have hrun : h.Terminate visit = ⟨some e, h, (pre ++ [y]).map Event.unsubscribe⟩ := by
    simp only [Hub.Terminate, terminateLoop_eq_terminateSubs, hsplit,
      terminateSubs_first_fail y e post he pre hpre']
  rw [hrun]
  exact ⟨by simp, rfl, pre, y, post, e, hsplit, hpre', he, rfl, rfl⟩

/-- C13 on a Hub with `subscriber1` under `"id1"`, the failing `subscriberID2Err` under
`"id2"` and `subscriberID3` under `"id3"`, the entries yielded from `"id3"` on:
`subscriberID3` and `subscriber1` are unsubscribed, `subscriberID2Err` fails, and the map
still holds all three. -/
theorem Terminate_stops_at_first_failure_witness :
    ((subscribeEach hubDefault [subscriber1, subscriberID2Err, subscriberID3]).1.Terminate
        [("id3", [subscriberID3]), ("id1", [subscriber1]), ("id2", [subscriberID2Err])]).err
        = some (Error.new "error2") ∧
      ((subscribeEach hubDefault [subscriber1, subscriberID2Err, subscriberID3]).1.Terminate
        [("id3", [subscriberID3]), ("id1", [subscriber1]), ("id2", [subscriberID2Err])]).hub
        = (subscribeEach hubDefault [subscriber1, subscriberID2Err, subscriberID3]).1 ∧
      ((subscribeEach hubDefault [subscriber1, subscriberID2Err, subscriberID3]).1.Terminate
        [("id3", [subscriberID3]), ("id1", [subscriber1]), ("id2", [subscriberID2Err])]).calls
        = [Event.unsubscribe subscriberID3, Event.unsubscribe subscriber1,
            Event.unsubscribe subscriberID2Err] :=
  have hthm := Terminate_stops_at_first_failure
    (subscribeEach hubDefault [subscriber1, subscriberID2Err, subscriberID3]).1
    [("id3", [subscriberID3]), ("id1", [subscriber1]), ("id2", [subscriberID2Err])]
    (by decide) ⟨("id2", [subscriberID2Err]), by decide, subscriberID2Err, by decide, by decide⟩
  ⟨by decide, hthm.2.1, by decide⟩

/-- C18, evaluated on the code.  After `Subscribe` of `subscriber1`, `subscriberID2` and
`subscriberID3`, of identities `"id1"`, `"id2"`, `"id3"`, in that order, the map holds
the three entries, and a `range` over it that yields `"id3"` first makes `Terminate()`
invoke `Unsubscribe()` on `subscriberID3`, then `subscriber1`, then `subscriberID2`,
which is not the order of subscription that the claim and `ExampleHub_Terminate` have. -/
theorem Terminate_order_eval :
    (subscribeEach hubDefault [subscriber1, subscriberID2, subscriberID3]).1.subs
        = [("id1", [subscriber1]), ("id2", [subscriberID2]), ("id3", [subscriberID3])] ∧
      List.Perm [("id3", [subscriberID3]), ("id1", [subscriber1]), ("id2", [subscriberID2])]
        (subscribeEach hubDefault [subscriber1, subscriberID2, subscriberID3]).1.subs ∧
      ((subscribeEach hubDefault [subscriber1, subscriberID2, subscriberID3]).1.Terminate
        [("id3", [subscriberID3]), ("id1", [subscriber1]), ("id2", [subscriberID2])]).calls
        = [Event.unsubscribe subscriberID3, Event.unsubscribe subscriber1,
            Event.unsubscribe subscriberID2] ∧
      ((subscribeEach hubDefault [subscriber1, subscriberID2, subscriberID3]).1.Terminate
        [("id3", [subscriberID3]), ("id1", [subscriber1]), ("id2", [subscriberID2])]).calls
        ≠ [subscriber1, subscriberID2, subscriberID3].map Event.unsubscribe := by
  decide

end TerminateClaims

/-! ## The start of Publish -/

theorem sendSubs_fits {S : Type} (cap : Nat) :
    ∀ (l buf : List S), buf.length + l.length ≤ cap →
      sendSubs cap buf l = some (buf ++ l) := by
  intro l
  induction l with
  | nil => intro buf _; simp [sendSubs]
  | cons a rest ih =>
    intro buf hfit
    have hlt : buf.length < cap := by simp at hfit; omega
    have hnext := ih (buf ++ [a]) (by simp at hfit ⊢; omega)
    simp [sendSubs, hlt, hnext]

theorem sendSubs_blocks {S : Type} (cap : Nat) :
    ∀ (l buf : List S), cap < buf.length + l.length → buf.length ≤ cap →
      sendSubs cap buf l = none := by
  intro l
  induction l with
  | nil => intro buf hover hle; simp at hover; omega
  | cons a rest ih =>
    intro buf hover hle
    by_cases hlt : buf.length < cap
    · have hnext := ih (buf ++ [a]) (by simp at hover ⊢; omega) (by simp; omega)
      simp [sendSubs, hlt, hnext]
    · simp [sendSubs, hlt]

/-- The loop of `Publish` gets through when the channel has room for every handle: the
channel then holds the handles in the order they were yielded, and `count` is their
number. -/
theorem snapshotLoop_fits {ID S : Type} (cap : Nat) :
    ∀ (visit : List (ID × List S)) (buf : List S) (count : Nat),
      buf.length + (visit.map (fun p => p.2.length)).sum ≤ cap →
      snapshotLoop cap visit buf count
        = some (buf ++ (visit.map Prod.snd).flatten,
            count + (visit.map (fun p => p.2.length)).sum) := by
  intro visit
  induction visit with
  | nil => intro buf count _; simp [snapshotLoop]
  | cons p rest ih =>
    obtain ⟨k, v⟩ := p
    intro buf count hfit
    simp only [List.map_cons, List.sum_cons] at hfit
    have hsend := sendSubs_fits cap v buf (by omega)
    have hnext := ih (buf ++ v) (count + v.length) (by simp; omega)
    simp only [snapshotLoop, hsend, hnext, List.map_cons, List.sum_cons, List.flatten_cons,
      List.append_assoc, Nat.add_assoc]

/-- The loop of `Publish` stops for good at a send when there are more handles than the
channel has room for. -/
theorem snapshotLoop_blocks {ID S : Type} (cap : Nat) :
    ∀ (visit : List (ID × List S)) (buf : List S) (count : Nat),
      buf.length ≤ cap → cap < buf.length + (visit.map (fun p => p.2.length)).sum →
      snapshotLoop cap visit buf count = none := by
  intro visit
  induction visit with
  | nil => intro buf count hle hover; simp at hover; omega
  | cons p rest ih =>
    obtain ⟨k, v⟩ := p
    intro buf count hle hover
    simp only [List.map_cons, List.sum_cons] at hover
    by_cases hfit : buf.length + v.length ≤ cap
    · have hsend := sendSubs_fits cap v buf hfit
      have hnext := ih (buf ++ v) (count + v.length) (by simp; omega) (by simp; omega)
      simp only [snapshotLoop, hsend, hnext]
    · have hsend := sendSubs_blocks cap v buf (by omega) hle
      simp only [snapshotLoop, hsend]

theorem total_of_perm {ID S : Type} (visit m : List (ID × List S)) (hperm : visit.Perm m) :
    (visit.map (fun p => p.2.length)).sum = (m.map (fun p => p.2.length)).sum :=
  (hperm.map (fun p => p.2.length)).sum_eq

/-- With more registered entries than identities present, `Publish` stops for good in
its first loop, whatever the order the map yields its entries in. -/
theorem publishStart_blocked {ID S : Type} (h : Hub ID S)
    (visit : List (ID × List S)) (hperm : visit.Perm h.subs) (hover : h.queueCap < h.total) :
    h.publishStart visit = PublishStart.blocked := by
  have htotal := total_of_perm visit h.subs hperm
  have hrun := snapshotLoop_blocks h.queueCap visit [] 0 (Nat.zero_le _)
    (by simp only [List.length_nil, Nat.zero_add, htotal]; exact hover)
  simp only [Hub.publishStart, hrun]

/-- With no more registered entries than identities present, and at least one,
`Publish` starts its workers on all the handles. -/
theorem publishStart_dispatch {ID S : Type} (h : Hub ID S)
    (visit : List (ID × List S)) (hperm : visit.Perm h.subs) (hfit : h.total ≤ h.queueCap)
    (hpos : 0 < h.total) :
    h.publishStart visit = PublishStart.dispatch (visit.map Prod.snd).flatten h.total := by
  have htotal := total_of_perm visit h.subs hperm
  have hrun := snapshotLoop_fits h.queueCap visit [] 0
    (by simp only [List.length_nil, Nat.zero_add, htotal]; exact hfit)
  have hne : ¬ h.total = 0 := by omega
  simp only [Hub.publishStart, hrun, htotal, List.nil_append, Nat.zero_add]
  simp [Hub.total] at hne ⊢
  exact hne

section PublishStartClaims

/-- C14.  On a Hub that holds no subscriber, its map empty or every identity present
with an empty sequence, `Publish(f)`, in whatever order the map yields its entries,
takes the return of line 115: it returns `nil` with no worker started and `f` not
invoked. -/
theorem Publish_zero_subscribers {ID S : Type} (h : Hub ID S) (visit : List (ID × List S))
    (hperm : visit.Perm h.subs) (hzero : ∀ p ∈ h.subs, p.2 = []) :
    h.total = 0 ∧ h.publishStart visit = PublishStart.returned := by
  have hsum : ∀ (m : List (ID × List S)), (∀ p ∈ m, p.2 = []) →
      (m.map (fun p => p.2.length)).sum = 0 := by
    intro m
    induction m with
    | nil => intro _; rfl
    | cons p rest ih =>
      intro hz
      have hp : p.2 = [] := hz p (List.mem_cons_self p rest)
      have hrest := ih (fun q hq => hz q (List.mem_cons_of_mem p hq))
      simp [hp, hrest]
  have htot : h.total = 0 := hsum h.subs hzero
  have hvis : (visit.map (fun p => p.2.length)).sum = 0 :=
    (total_of_perm visit h.subs hperm).trans htot
  have hrun := snapshotLoop_fits h.queueCap visit [] 0 (by simp [hvis])
  refine ⟨htot, ?_⟩
  simp only [Hub.publishStart, hrun, hvis]
  rfl

/-- C14 after `Subscribe(subscriber1)` and `Unsubscribe(subscriber1)`, which leave
`"id1"` present with an empty sequence. -/
theorem Publish_zero_subscribers_witness :
    ((subscribeEach hubDefault [subscriber1]).1.Unsubscribe subscriber1).hub.subs
        = [("id1", [])] ∧
      ((subscribeEach hubDefault [subscriber1]).1.Unsubscribe subscriber1).hub.publishStart
        [("id1", [])] = PublishStart.returned ∧
      hubDefault.publishStart [] = PublishStart.returned :=
  ⟨by decide,
    (Publish_zero_subscribers
      ((subscribeEach hubDefault [subscriber1]).1.Unsubscribe subscriber1).hub
      [("id1", [])] (by decide) (by decide)).2,
    (Publish_zero_subscribers hubDefault [] (by decide) (by decide)).2⟩

/-- C16, evaluated on the code.  After `Subscribe` of `subscriber1`, `subscriberID2` and
`subscriber2` on a default Hub, whose concurrency is 5, the map has the two identities
`"id1"` and `"id2"` and three entries, two of them under `"id1"`.  `Publish` gives `ch`
the capacity two, and in either order of the two entries its first loop stops for good
at the third send: `Publish` does not return, and no worker is started, so that the
action is invoked on no subscriber. -/
theorem Publish_shared_identity_eval :
    (subscribeEach hubDefault [subscriber1, subscriberID2, subscriber2]).1.subs
        = [("id1", [subscriber1, subscriber2]), ("id2", [subscriberID2])] ∧
      1 ≤ (subscribeEach hubDefault [subscriber1, subscriberID2, subscriber2]).1.concurrency ∧
      (subscribeEach hubDefault [subscriber1, subscriberID2, subscriber2]).1.total = 3 ∧
      (subscribeEach hubDefault [subscriber1, subscriberID2, subscriber2]).1.queueCap = 2 ∧
      (subscribeEach hubDefault [subscriber1, subscriberID2, subscriber2]).1.publishStart
        [("id1", [subscriber1, subscriber2]), ("id2", [subscriberID2])]
        = PublishStart.blocked ∧
      (subscribeEach hubDefault [subscriber1, subscriberID2, subscriber2]).1.publishStart
        [("id2", [subscriberID2]), ("id1", [subscriber1, subscriber2])]
        = PublishStart.blocked := by
  decide

/-- C19, evaluated on the code.  After `Subscribe` of `subscriber1` and `subscriber2`,
both of identity `"id1"`, on a default Hub, there are two registered entries and one
identity, so `Publish` makes `ch` with capacity one, below the two handles it then
sends: the second send finds the channel full and the first loop stops there for good. -/
theorem Publish_queue_capacity_eval :
    (subscribeEach hubDefault [subscriber1, subscriber2]).1.subs
        = [("id1", [subscriber1, subscriber2])] ∧
      (subscribeEach hubDefault [subscriber1, subscriber2]).1.total = 2 ∧
      (subscribeEach hubDefault [subscriber1, subscriber2]).1.queueCap = 1 ∧
      sendSubs (subscribeEach hubDefault [subscriber1, subscriber2]).1.queueCap []
        [subscriber1] = some [subscriber1] ∧
      sendSubs (subscribeEach hubDefault [subscriber1, subscriber2]).1.queueCap []
        [subscriber1, subscriber2] = none ∧
      (subscribeEach hubDefault [subscriber1, subscriber2]).1.publishStart
        (subscribeEach hubDefault [subscriber1, subscriber2]).1.subs
        = PublishStart.blocked := by
  decide

end PublishStartClaims

/-! ## New and its options -/

/-- Options that are all `AllowDuplicableID` leave the concurrency where it was. -/
theorem foldl_allowDuplicableID_concurrency {ID S : Type} :
    ∀ (post : List (HubOption ID S)) (h : Hub ID S),
      (∀ o ∈ post, ∃ b, o = AllowDuplicableID b) →
      (post.foldl (fun h o => o h) h).concurrency = h.concurrency := by
  intro post
  induction post with
  | nil => intro h _; rfl
  | cons o rest ih =>
    intro h hall
    obtain ⟨b, hb⟩ := hall o (List.mem_cons_self o rest)
    rw [List.foldl_cons, ih _ (fun o' ho' => hall o' (List.mem_cons_of_mem o ho')), hb]
    rfl

/-- The options of `option.go` leave the map of a Hub where it was. -/
theorem foldl_options_subs {ID S : Type} :
    ∀ (options : List (HubOption ID S)) (h : Hub ID S),
      (∀ o ∈ options, (∃ n, o = Concurrency n) ∨ (∃ b, o = AllowDuplicableID b)) →
      (options.foldl (fun h o => o h) h).subs = h.subs := by
  intro options
  induction options with
  | nil => intro h _; rfl
  | cons o rest ih =>
    intro h hall
    rw [List.foldl_cons, ih _ (fun o' ho' => hall o' (List.mem_cons_of_mem o ho'))]
    rcases hall o (List.mem_cons_self o rest) with ⟨n, hn⟩ | ⟨b, hb⟩
    · rw [hn]; rfl
    · rw [hb]; rfl

section NewClaims

/-- C15, the claim as stated, on the code: `Concurrency(0)` and `Concurrency(-3)` are
stored as they are given, so the concurrency of `New(Concurrency(0))` is not positive. -/
theorem New_concurrency_not_positive :
    (New [Concurrency 0] : Hub String stabSubscriber).concurrency = 0 ∧
      (New [Concurrency (-3)] : Hub String stabSubscriber).concurrency = -3 ∧
      ¬ 0 < (New [Concurrency 0] : Hub String stabSubscriber).concurrency := by
  decide

/-- C15, amended.  The concurrency of the Hub that `New` returns is 5 when no
`Concurrency` option is given, and is `n` after `Concurrency(n)`, the last such option
given, for every integer `n`: the value is stored as it is given, so that the
concurrency is positive exactly when `n` is at least one. -/
theorem New_concurrency_as_given {ID S : Type} :
    (∀ (options : List (HubOption ID S)), (∀ o ∈ options, ∃ b, o = AllowDuplicableID b) →
        (New options).concurrency = 5) ∧
      (∀ (pre post : List (HubOption ID S)) (n : Int),
        (∀ o ∈ post, ∃ b, o = AllowDuplicableID b) →
        (New (pre ++ Concurrency n :: post)).concurrency = n ∧
          (0 < (New (pre ++ Concurrency n :: post)).concurrency ↔ 1 ≤ n)) := by
  refine ⟨?_, ?_⟩
  · intro options hall
    unfold New
    rw [foldl_allowDuplicableID_concurrency options _ hall]
  · intro pre post n hall
    have hval : (New (pre ++ Concurrency n :: post)).concurrency = n := by
      unfold New
      rw [List.foldl_append, List.foldl_cons, foldl_allowDuplicableID_concurrency post _ hall]
      rfl
    rw [hval]
    exact ⟨rfl, by omega⟩

/-- C15, amended, on `TestNew`, lines 13 to 25, and on `Concurrency(0)`. -/
theorem New_concurrency_as_given_witness :
    (New [] : Hub String stabSubscriber).concurrency = 5 ∧
      (New [Concurrency 100, AllowDuplicableID false] : Hub String stabSubscriber).concurrency
        = 100 ∧
      (New [Concurrency 7, Concurrency 0] : Hub String stabSubscriber).concurrency = 0 :=
  ⟨New_concurrency_as_given.1 [] (by simp),
    (New_concurrency_as_given.2 [] [AllowDuplicableID false] 100
      (by intro o ho; exact ⟨false, by simpa using ho⟩)).1,
    (New_concurrency_as_given.2 [Concurrency 7] [] 0 (by simp)).1⟩

end NewClaims

/-! ## The entries of the map and their keys -/

theorem mem_mapSet {ID S : Type} [DecidableEq ID] (id : ID) (v : List S) :
    ∀ (m : List (ID × List S)) (p : ID × List S),
      p ∈ mapSet m id v → p ∈ m ∨ p = (id, v) := by
  intro m
  induction m with
  | nil => intro p hp; simp [mapSet] at hp; exact Or.inr hp
  | cons q rest ih =>
    obtain ⟨k, w⟩ := q
    intro p hp
    by_cases hk : k = id
    · subst hk
      simp only [mapSet, if_true, List.mem_cons] at hp
      rcases hp with hp | hp
      · exact Or.inr hp
      · exact Or.inl (List.mem_cons_of_mem _ hp)
    · simp only [mapSet, hk, if_false, List.mem_cons] at hp
      rcases hp with hp | hp
      · exact Or.inl (hp ▸ List.mem_cons_self _ _)
      · rcases ih p hp with hin | heq
        · exact Or.inl (List.mem_cons_of_mem _ hin)
        · exact Or.inr heq

theorem mem_mapGet {ID S : Type} [DecidableEq ID] (id : ID) (x : S) :
    ∀ (m : List (ID × List S)), x ∈ mapGet m id → ∃ p ∈ m, p.1 = id ∧ x ∈ p.2 := by
  intro m
  induction m with
  | nil => intro hx; simp [mapGet] at hx
  | cons q rest ih =>
    obtain ⟨k, w⟩ := q
    intro hx
    by_cases hk : k = id
    · simp only [mapGet, hk, if_true] at hx
      exact ⟨(k, w), List.mem_cons_self _ _, hk, hx⟩
    · simp only [mapGet, hk, if_false] at hx
      obtain ⟨p, hp, hpid, hxp⟩ := ih hx
      exact ⟨p, List.mem_cons_of_mem _ hp, hpid, hxp⟩

/-- A map write keeps a property of the entries that the written sequence has. -/
theorem mapSet_keeps {ID S : Type} [DecidableEq ID] (Q : ID → S → Prop)
    (m : List (ID × List S)) (id : ID) (v : List S)
    (hm : ∀ p ∈ m, ∀ x ∈ p.2, Q p.1 x) (hv : ∀ x ∈ v, Q id x) :
    ∀ p ∈ mapSet m id v, ∀ x ∈ p.2, Q p.1 x := by
  intro p hp x hx
  rcases mem_mapSet id v m p hp with hin | heq
  · exact hm p hin x hx
  · subst heq
    exact hv x hx

/-- The loop of `Unsubscribe` keeps a property of the entries that the handles of the
local slice have under the identity of `s`. -/
theorem unsubscribeLoop_keeps {ID S : Type} [DecidableEq ID] [DecidableEq S] [Subscriber S ID]
    (Q : ID → S → Prop) (s : S) :
    ∀ (k i : Nat) (subs : List S) (h : Hub ID S) (calls : List (Event S)),
      (∀ x ∈ subs, Q (Subscriber.GetID s) x) → (∀ p ∈ h.subs, ∀ x ∈ p.2, Q p.1 x) →
      ∀ p ∈ (unsubscribeLoop s k i subs h calls).hub.subs, ∀ x ∈ p.2, Q p.1 x := by
  intro k
  induction k with
  | zero => intro i subs h calls _ hh; exact hh
  | succ k ih =>
    intro i subs h calls hsubs hh
    rw [unsubscribeLoop]
    cases hget : subs.get? i with
    | none => exact hh
    | some ss =>
      by_cases heq : ss = s
      · simp only [heq, if_true]
        cases hhook : Subscriber.Unsubscribe s with
        | some err => exact hh
        | none =>
          simp only
          have hkept : ∀ x ∈ subs.take i ++ subs.drop (i + 1), Q (Subscriber.GetID s) x := by
            intro x hx
            rcases List.mem_append.mp hx with hx | hx
            · exact hsubs x (List.mem_of_mem_take hx)
            · exact hsubs x (List.mem_of_mem_drop hx)
          apply ih
          · intro x hx
            rcases List.mem_append.mp hx with hx | hx
            · exact hkept x hx
            · exact hsubs x (List.mem_of_mem_drop hx)
          · exact mapSet_keeps Q h.subs (Subscriber.GetID s) _ hh hkept
      · simp only [heq, if_false]
        exact ih (i + 1) subs h calls hsubs hh

/-- On every Hub arrived at, each handle of each entry has the key of the entry as its
identity and was passed to `Subscribe`. -/
theorem entries_keyed_of_reachable {ID S : Type} [DecidableEq ID] [DecidableEq S]
    [Subscriber S ID] (h : Hub ID S) (hist : List S) (hr : Reachable h hist) :
    ∀ p ∈ h.subs, ∀ x ∈ p.2, Subscriber.GetID x = p.1 ∧ x ∈ hist := by
  induction hr with
  | new options hopts =>
    intro p hp
    have hnil : (New options).subs = [] := foldl_options_subs options _ hopts
    rw [hnil] at hp
    simp at hp
  | @subscribe h hist s _ ih =>
    have ih' : ∀ p ∈ h.subs, ∀ x ∈ p.2, Subscriber.GetID x = p.1 ∧ x ∈ hist ++ [s] :=
      fun p hp x hx => ⟨(ih p hp x hx).1, List.mem_append_left _ (ih p hp x hx).2⟩
    have hold : ∀ x ∈ h.get (Subscriber.GetID s),
        Subscriber.GetID x = Subscriber.GetID s ∧ x ∈ hist ++ [s] := by
      intro x hx
      obtain ⟨p, hp, hpid, hxp⟩ := mem_mapGet (Subscriber.GetID s) x h.subs hx
      exact ⟨hpid ▸ (ih' p hp x hxp).1, (ih' p hp x hxp).2⟩
    have hs : Subscriber.GetID s = Subscriber.GetID s ∧ s ∈ hist ++ [s] := ⟨rfl, by simp⟩
    unfold Hub.Subscribe
    simp only
    by_cases hcfg : h.allowDuplicableID = true
    · simp only [hcfg, Bool.not_true, Bool.false_eq_true, if_false]
      cases Subscriber.Subscribe s with
      | some err => exact ih'
      | none =>
        apply mapSet_keeps (fun k x => Subscriber.GetID x = k ∧ x ∈ hist ++ [s]) _ _ _ ih'
        intro x hx
        rcases List.mem_append.mp hx with hx | hx
        · exact hold x hx
        · rw [List.mem_singleton.mp hx]; exact hs
    · have hcfg' : h.allowDuplicableID = false := by simpa using hcfg
      simp only [hcfg', Bool.not_false, if_true]
      rcases unsubscribeOld (h.get (Subscriber.GetID s)) with ⟨_ | err, calls⟩
      · apply mapSet_keeps (fun k x => Subscriber.GetID x = k ∧ x ∈ hist ++ [s]) _ _ _ ih'
        intro x hx
        rw [List.mem_singleton.mp hx]; exact hs
      · exact ih'
  | @unsubscribe h hist s _ ih =>
    unfold Hub.Unsubscribe
    apply unsubscribeLoop_keeps (fun k x => Subscriber.GetID x = k ∧ x ∈ hist) s _ _ _ _ _ _ ih
    intro x hx
    obtain ⟨p, hp, hpid, hxp⟩ := mem_mapGet (Subscriber.GetID s) x h.subs hx
    exact ⟨hpid ▸ (ih p hp x hxp).1, (ih p hp x hxp).2⟩
  | publish visit _ _ ih => exact ih
  | publishTo f ids _ ih => exact ih
  | @terminate h hist visit _ _ ih =>
    unfold Hub.Terminate
    rcases terminateLoop visit with ⟨_ | err, calls⟩
    · intro p hp
      simp [Hub.clearSubs] at hp
    · exact ih

theorem publishSubs_calls {S : Type} (f : S → Option Error) :
    ∀ (l : List S), ∀ ev ∈ (publishSubs f l).2, ∃ s ∈ l, ev = Event.action s := by
  intro l
  induction l with
  | nil => intro ev hev; simp [publishSubs] at hev
  | cons a rest ih =>
    intro ev hev
    cases ha : f a with
    | some err =>
      simp only [publishSubs, ha, List.mem_singleton] at hev
      exact ⟨a, List.mem_cons_self a rest, hev⟩
    | none =>
      simp only [publishSubs, ha, List.mem_cons] at hev
      rcases hev with hev | hev
      · exact ⟨a, List.mem_cons_self a rest, hev⟩
      · obtain ⟨s, hs, hes⟩ := ih ev hev
        exact ⟨s, List.mem_cons_of_mem a hs, hes⟩

/-- Three subscriptions on a default Hub, as in `TestPublishTo`, lines 137 to 140. -/
theorem reachable_three :
    Reachable
      (((hubDefault.Subscribe subscriber1).hub.Subscribe subscriberID2).hub.Subscribe
        subscriberID3).hub
      ((([] ++ [subscriber1]) ++ [subscriberID2]) ++ [subscriberID3]) :=
  Reachable.subscribe subscriberID3
    (Reachable.subscribe subscriberID2
      (Reachable.subscribe subscriber1 (Reachable.new [] (by simp))))

section InvariantClaims

variable {ID S : Type} [DecidableEq ID] [DecidableEq S] [Subscriber S ID]

/-- C11.  On every Hub arrived at from `New` by calls of `Subscribe`, `Unsubscribe` and
`Terminate`, `Publish` and `PublishTo` among them or not, `PublishTo(f, ids...)` invokes
nothing but `f`, and `f` only on subscribers whose `GetID()` is one of `ids`. -/
theorem PublishTo_only_listed (h : Hub ID S) (hist : List S) (hr : Reachable h hist)
    (f : S → Option Error) (ids : List ID) :
    ∀ ev ∈ (h.PublishTo f ids).calls,
      ∃ s, ev = Event.action s ∧ Subscriber.GetID s ∈ ids := by
  intro ev hev
  have hcalls : (h.PublishTo f ids).calls = (publishSubs f (ids.map h.get).flatten).2 := by
    unfold Hub.PublishTo
    rw [publishIDs_eq_publishSubs]
  rw [hcalls] at hev
  obtain ⟨s, hs, hes⟩ := publishSubs_calls f _ ev hev
  obtain ⟨l, hl, hsl⟩ := List.mem_flatten.mp hs
  obtain ⟨id, hid, rfl⟩ := List.mem_map.mp hl
  obtain ⟨p, hp, hpid, hsp⟩ := mem_mapGet id s h.subs hsl
  have hkey := (entries_keyed_of_reachable h hist hr p hp s hsp).1
  exact ⟨s, hes, by rw [hkey, hpid]; exact hid⟩

/-- C11 on `TestPublishTo`, lines 137 to 148: with handles under `"id1"`, `"id2"` and
`"id3"`, `PublishTo` over `"id1"` and `"id2"` does not come to the handle of `"id3"`. -/
theorem PublishTo_only_listed_witness :
    (∀ ev ∈ ((((hubDefault.Subscribe subscriber1).hub.Subscribe subscriberID2).hub.Subscribe
          subscriberID3).hub.PublishTo (fun _ => none) ["id1", "id2"]).calls,
        ∃ s, ev = Event.action s ∧ Subscriber.GetID s ∈ ["id1", "id2"]) ∧
      ((((hubDefault.Subscribe subscriber1).hub.Subscribe subscriberID2).hub.Subscribe
          subscriberID3).hub.PublishTo (fun _ => none) ["id1", "id2"]).calls
        = [Event.action subscriber1, Event.action subscriberID2] :=
  ⟨PublishTo_only_listed _ _ reachable_three (fun _ => none) ["id1", "id2"], by decide⟩

/-- C20.  On every Hub arrived at from `New` by calls of `Subscribe`, `Unsubscribe`,
`Publish`, `PublishTo` and `Terminate`, every handle stored in the sequence of an entry
of key `k`, and so every handle read under `k`, has `GetID() = k` and was passed to an
earlier `Subscribe`. -/
theorem Reachable_entries_keyed (h : Hub ID S) (hist : List S) (hr : Reachable h hist) :
    (∀ p ∈ h.subs, ∀ x ∈ p.2, Subscriber.GetID x = p.1 ∧ x ∈ hist) ∧
      (∀ (k : ID), ∀ x ∈ h.get k, Subscriber.GetID x = k ∧ x ∈ hist) := by
  have hent := entries_keyed_of_reachable h hist hr
  refine ⟨hent, ?_⟩
  intro k x hx
  obtain ⟨p, hp, hpid, hxp⟩ := mem_mapGet k x h.subs hx
  exact ⟨hpid ▸ (hent p hp x hxp).1, (hent p hp x hxp).2⟩

/-- C20 on the Hub of C1: after `Subscribe` of `subscriber1`, `subscriber2`,
`subscriber1`, `subscriber3` and `Unsubscribe(subscriber1)`, the sequence under `"id1"`
is `[subscriber2, subscriber3, subscriber3]`, handles of identity `"id1"` that were all
subscribed. -/
theorem Reachable_entries_keyed_witness :
    (∀ (k : String), ∀ x ∈ (((((hubDefault.Subscribe subscriber1).hub.Subscribe
          subscriber2).hub.Subscribe subscriber1).hub.Subscribe
          subscriber3).hub.Unsubscribe subscriber1).hub.get k,
        Subscriber.GetID x = k ∧
          x ∈ (((([] ++ [subscriber1]) ++ [subscriber2]) ++ [subscriber1]) ++ [subscriber3])) ∧
      (((((hubDefault.Subscribe subscriber1).hub.Subscribe subscriber2).hub.Subscribe
          subscriber1).hub.Subscribe subscriber3).hub.Unsubscribe subscriber1).hub.get "id1"
        = [subscriber2, subscriber3, subscriber3] :=
  ⟨(Reachable_entries_keyed _ _
      (Reachable.unsubscribe subscriber1
        (Reachable.subscribe subscriber3
          (Reachable.subscribe subscriber1
            (Reachable.subscribe subscriber2
              (Reachable.subscribe subscriber1 (Reachable.new [] (by simp)))))))).2,
    by decide⟩

end InvariantClaims

/-! ## The workers of Publish -/

/-- Replacing the worker at a place changes a sum over the workers by the difference at
that place. -/
theorem sum_map_set {S : Type} (g : Worker S → Nat) (w w' : Worker S) :
    ∀ (l : List (Worker S)) (i : Nat), l[i]? = some w →
      ((l.set i w').map g).sum + g w = (l.map g).sum + g w' := by
  intro l
  induction l with
  | nil => intro i hget; simp at hget
  | cons a rest ih =>
    intro i hget
    cases i with
    | zero =>
      simp at hget
      subst hget
      simp only [List.set_cons_zero, List.map_cons, List.sum_cons]
      omega
    | succ j =>
      have hget' : rest[j]? = some w := by simpa using hget
      have := ih j hget'
      simp only [List.set_cons_succ, List.map_cons, List.sum_cons]
      omega

theorem sound_of_mem_set {S : Type} (f : S → Option Error) (q : List S)
    (l : List (Worker S)) (i : Nat) (w' : Worker S)
    (hl : ∀ w ∈ l, Worker.Sound f q w) (hw' : Worker.Sound f q w') :
    ∀ w ∈ l.set i w', Worker.Sound f q w := by
  intro w hw
  rcases List.mem_or_eq_of_mem_set hw with hin | heq
  · exact hl w hin
  · exact heq ▸ hw'

theorem failing_le_pending {S : Type} (f : S → Option Error) :
    ∀ (l : List (Worker S)), (l.map (Worker.failing f)).sum ≤ (l.map Worker.pending).sum := by
  intro l
  induction l with
  | nil => simp
  | cons a rest ih =>
    simp only [List.map_cons, List.sum_cons]
    have : Worker.failing f a ≤ Worker.pending a := by
      cases a <;> simp [Worker.failing, Worker.pending]
      split <;> omega
    omega

theorem good_of_selecting {S : Type} (f : S → Option Error) (q : List S) (p : Pool S)
    (done : Nat) (hcaller : p.caller = Caller.selecting done) (hinv : Pool.Inv f q p done) :
    Pool.Good f q p := by
  unfold Pool.Good
  rw [hcaller]
  exact hinv

theorem good_of_returned {S : Type} (f : S → Option Error) (q : List S) (p : Pool S)
    (r : Option Error) (hcaller : p.caller = Caller.returned r)
    (hnone : r = none → failures f q = 0)
    (hsome : ∀ e, r = some e → ∃ s ∈ q, f s = some e) :
    Pool.Good f q p := by
  unfold Pool.Good
  rw [hcaller]
  exact ⟨hnone, hsome⟩

/-- A move of a worker keeps what holds of the pool. -/
theorem good_stepWorker {S : Type} (f : S → Option Error) (q : List S) (p p' : Pool S)
    (done : Nat) (i : Nat) (hcaller : p.caller = Caller.selecting done)
    (hinv : Pool.Inv f q p done) (hstep : p.stepWorker f i = some p') :
    Pool.Good f q p' := by
  unfold Pool.stepWorker at hstep
  rw [List.get?_eq_getElem?] at hstep
  cases hget : p.workers[i]? with
  | none => simp [hget] at hstep
  | some w =>
    have hmem : w ∈ p.workers := List.getElem?_mem hget
    have hsound := hinv.held w hmem
    rw [hget] at hstep
    cases w with
    | receiving =>
      cases hch : p.ch with
      | nil => simp [hch] at hstep
      | cons s rest =>
        simp only [hch, Option.some.injEq] at hstep
        subst hstep
        have hs : s ∈ q := hinv.ch_sub s (by rw [hch]; exact List.mem_cons_self s rest)
        have h1 := sum_map_set Worker.pending Worker.receiving (Worker.calling s) p.workers i hget
        have h2 := sum_map_set (Worker.failing f) Worker.receiving (Worker.calling s)
          p.workers i hget
        have hpl := hinv.placed
        have hfl := hinv.failing
        rw [hch] at hpl hfl
        refine good_of_selecting f q _ done hcaller
          ⟨hinv.count_eq, hinv.cap_pos, hinv.done_lt, ?_, ?_, ?_, ?_⟩
        · simp only [Worker.pending, List.length_cons] at h1 hpl ⊢
          omega
        · simp only [Worker.failing, failures, List.countP_cons] at h2 hfl ⊢
          omega
        · intro x hx
          exact hinv.ch_sub x (by rw [hch]; exact List.mem_cons_of_mem s hx)
        · exact sound_of_mem_set f q p.workers i _ hinv.held hs
    | calling s =>
      cases hf : f s with
      | some err =>
        simp only [hf, Option.some.injEq] at hstep
        subst hstep
        have h1 := sum_map_set Worker.pending (Worker.calling s) (Worker.sendingErr err)
          p.workers i hget
        have h2 := sum_map_set (Worker.failing f) (Worker.calling s) (Worker.sendingErr err)
          p.workers i hget
        have hpl := hinv.placed
        have hfl := hinv.failing
        refine good_of_selecting f q _ done hcaller
          ⟨hinv.count_eq, hinv.cap_pos, hinv.done_lt, ?_, ?_, hinv.ch_sub, ?_⟩
        · simp only [Worker.pending] at h1 ⊢
          omega
        · simp only [Worker.failing, hf, Option.isSome_some, if_true] at h2 ⊢
          omega
        · exact sound_of_mem_set f q p.workers i _ hinv.held ⟨s, hsound, hf⟩
      | none =>
        simp only [hf, Option.some.injEq] at hstep
        subst hstep
        have h1 := sum_map_set Worker.pending (Worker.calling s) Worker.sendingDone
          p.workers i hget
        have h2 := sum_map_set (Worker.failing f) (Worker.calling s) Worker.sendingDone
          p.workers i hget
        have hpl := hinv.placed
        have hfl := hinv.failing
        refine good_of_selecting f q _ done hcaller
          ⟨hinv.count_eq, hinv.cap_pos, hinv.done_lt, ?_, ?_, hinv.ch_sub, ?_⟩
        · simp only [Worker.pending] at h1 ⊢
          omega
        · simp only [Worker.failing, hf, Option.isSome_none, Bool.false_eq_true,
            if_false] at h2 ⊢
          omega
        · exact sound_of_mem_set f q p.workers i _ hinv.held trivial
    | sendingErr err =>
      simp only [Option.some.injEq] at hstep
      subst hstep
      apply good_of_returned f q _ (some err) rfl
      · intro h; cases h
      · intro e he
        cases he
        exact hsound
    | sendingDone =>
      by_cases hroom : p.doneCh < p.cap
      · simp only [hroom, if_true, Option.some.injEq] at hstep
        subst hstep
        have h1 := sum_map_set Worker.pending Worker.sendingDone Worker.receiving
          p.workers i hget
        have h2 := sum_map_set (Worker.failing f) Worker.sendingDone Worker.receiving
          p.workers i hget
        have hpl := hinv.placed
        have hfl := hinv.failing
        refine good_of_selecting f q _ done hcaller
          ⟨hinv.count_eq, hinv.cap_pos, hinv.done_lt, ?_, ?_, hinv.ch_sub, ?_⟩
        · simp only [Worker.pending] at h1 ⊢
          omega
        · simp only [Worker.failing] at h2 ⊢
          omega
        · exact sound_of_mem_set f q p.workers i _ hinv.held trivial
      · simp [hroom] at hstep
    | exited => simp at hstep

/-- A move of the caller keeps what holds of the pool. -/
theorem good_stepCaller {S : Type} (f : S → Option Error) (q : List S) (p p' : Pool S)
    (done : Nat) (hinv : Pool.Inv f q p done) (hstep : p.stepCaller done = some p') :
    Pool.Good f q p' := by
  unfold Pool.stepCaller at hstep
  by_cases hzero : p.doneCh = 0
  · simp [hzero] at hstep
  · simp only [hzero, if_false] at hstep
    have hpl := hinv.placed
    have hlt := hinv.done_lt
    by_cases hlast : done = p.count - 1
    · simp only [hlast, if_true, Option.some.injEq] at hstep
      subst hstep
      apply good_of_returned f q _ none rfl
      · intro _
        have hle := failing_le_pending f p.workers
        have hfl := hinv.failing
        have hch : p.ch = [] := List.length_eq_zero.mp (by omega)
        rw [hch] at hfl
        have hnil : failures f ([] : List S) = 0 := rfl
        omega
      · intro e he; cases he
    · simp only [hlast, if_false, Option.some.injEq] at hstep
      subst hstep
      apply good_of_selecting f q _ (done + 1) rfl
      exact ⟨hinv.count_eq, hinv.cap_pos, by show done + 1 < p.count; omega,
        by show p.ch.length + (p.workers.map Worker.pending).sum + (p.doneCh - 1) + (done + 1)
            = p.count; omega,
        hinv.failing, hinv.ch_sub, hinv.held⟩

/-- Every move keeps what holds of the pool. -/
theorem good_step {S : Type} (f : S → Option Error) (q : List S) (p p' : Pool S) (m : Move)
    (hgood : Pool.Good f q p) (hstep : p.step f m = some p') : Pool.Good f q p' := by
  cases hcaller : p.caller with
  | returned r => cases m <;> simp [Pool.step, hcaller] at hstep
  | selecting done =>
    have hinv : Pool.Inv f q p done := by simpa [Pool.Good, hcaller] using hgood
    cases m with
    | worker i =>
      simp only [Pool.step, hcaller] at hstep
      exact good_stepWorker f q p p' done i hcaller hinv hstep
    | caller =>
      simp only [Pool.step, hcaller] at hstep
      exact good_stepCaller f q p p' done hinv hstep

theorem good_run {S : Type} (f : S → Option Error) (q : List S) :
    ∀ (schedule : List Move) (p p' : Pool S), Pool.Good f q p →
      Pool.run f p schedule = some p' → Pool.Good f q p' := by
  intro schedule
  induction schedule with
  | nil =>
    intro p p' hgood hrun
    simp only [Pool.run, Option.some.injEq] at hrun
    exact hrun ▸ hgood
  | cons m rest ih =>
    intro p p' hgood hrun
    simp only [Pool.run] at hrun
    cases hstep : p.step f m with
    | none => simp [hstep] at hrun
    | some p₁ =>
      simp only [hstep] at hrun
      exact ih p₁ p' (good_step f q p p₁ m hgood hstep) hrun

theorem step_workers_length {S : Type} (f : S → Option Error) (p p' : Pool S) (m : Move)
    (hstep : p.step f m = some p') : p'.workers.length = p.workers.length := by
  cases hcaller : p.caller with
  | returned r => cases m <;> simp [Pool.step, hcaller] at hstep
  | selecting done =>
    cases m with
    | worker i =>
      simp only [Pool.step, hcaller] at hstep
      unfold Pool.stepWorker at hstep
      rw [List.get?_eq_getElem?] at hstep
      cases hget : p.workers[i]? with
      | none => simp [hget] at hstep
      | some w =>
        rw [hget] at hstep
        cases w with
        | receiving =>
          cases hch : p.ch with
          | nil => simp [hch] at hstep
          | cons s rest =>
            simp only [hch, Option.some.injEq] at hstep
            subst hstep
            simp
        | calling s =>
          cases hf : f s with
          | some err =>
            simp only [hf, Option.some.injEq] at hstep
            subst hstep
            simp
          | none =>
            simp only [hf, Option.some.injEq] at hstep
            subst hstep
            simp
        | sendingErr err =>
          simp only [Option.some.injEq] at hstep
          subst hstep
          simp
        | sendingDone =>
          by_cases hroom : p.doneCh < p.cap
          · simp only [hroom, if_true, Option.some.injEq] at hstep
            subst hstep
            simp
          · simp [hroom] at hstep
        | exited => simp at hstep
    | caller =>
      simp only [Pool.step, hcaller] at hstep
      unfold Pool.stepCaller at hstep
      by_cases hzero : p.doneCh = 0
      · simp [hzero] at hstep
      · simp only [hzero, if_false] at hstep
        by_cases hlast : done = p.count - 1
        · simp only [hlast, if_true, Option.some.injEq] at hstep
          subst hstep
          rfl
        · simp only [hlast, if_false, Option.some.injEq] at hstep
          subst hstep
          rfl

/-- Every move takes the bound on the moves left down. -/
theorem measure_step {S : Type} (f : S → Option Error) (p p' : Pool S) (m : Move)
    (hstep : p.step f m = some p') : p'.measure < p.measure := by
  cases hcaller : p.caller with
  | returned r => cases m <;> simp [Pool.step, hcaller] at hstep
  | selecting done =>
    cases m with
    | worker i =>
      simp only [Pool.step, hcaller] at hstep
      unfold Pool.stepWorker at hstep
      rw [List.get?_eq_getElem?] at hstep
      cases hget : p.workers[i]? with
      | none => simp [hget] at hstep
      | some w =>
        rw [hget] at hstep
        cases w with
        | receiving =>
          cases hch : p.ch with
          | nil => simp [hch] at hstep
          | cons s rest =>
            simp only [hch, Option.some.injEq] at hstep
            subst hstep
            have h1 := sum_map_set Worker.weight Worker.receiving (Worker.calling s)
              p.workers i hget
            simp only [Pool.measure, hch, List.length_cons, Worker.weight] at h1 ⊢
            omega
        | calling s =>
          cases hf : f s with
          | some err =>
            simp only [hf, Option.some.injEq] at hstep
            subst hstep
            have h1 := sum_map_set Worker.weight (Worker.calling s) (Worker.sendingErr err)
              p.workers i hget
            simp only [Pool.measure, Worker.weight] at h1 ⊢
            omega
          | none =>
            simp only [hf, Option.some.injEq] at hstep
            subst hstep
            have h1 := sum_map_set Worker.weight (Worker.calling s) Worker.sendingDone
              p.workers i hget
            simp only [Pool.measure, Worker.weight] at h1 ⊢
            omega
        | sendingErr err =>
          simp only [Option.some.injEq] at hstep
          subst hstep
          have h1 := sum_map_set Worker.weight (Worker.sendingErr err) Worker.exited
            p.workers i hget
          simp only [Pool.measure, Worker.weight] at h1 ⊢
          omega
        | sendingDone =>
          by_cases hroom : p.doneCh < p.cap
          · simp only [hroom, if_true, Option.some.injEq] at hstep
            subst hstep
            have h1 := sum_map_set Worker.weight Worker.sendingDone Worker.receiving
              p.workers i hget
            simp only [Pool.measure, Worker.weight] at h1 ⊢
            omega
          · simp [hroom] at hstep
        | exited => simp at hstep
    | caller =>
      simp only [Pool.step, hcaller] at hstep
      unfold Pool.stepCaller at hstep
      by_cases hzero : p.doneCh = 0
      · simp [hzero] at hstep
      · simp only [hzero, if_false] at hstep
        by_cases hlast : done = p.count - 1
        · simp only [hlast, if_true, Option.some.injEq] at hstep
          subst hstep
          simp only [Pool.measure]
          omega
        · simp only [hlast, if_false, Option.some.injEq] at hstep
          subst hstep
          simp only [Pool.measure]
          omega

/-- An execution is no longer than the bound of the pool it starts from. -/
theorem run_length_le {S : Type} (f : S → Option Error) :
    ∀ (schedule : List Move) (p p' : Pool S), Pool.run f p schedule = some p' →
      schedule.length + p'.measure ≤ p.measure := by
  intro schedule
  induction schedule with
  | nil =>
    intro p p' hrun
    simp only [Pool.run, Option.some.injEq] at hrun
    subst hrun
    simp
  | cons m rest ih =>
    intro p p' hrun
    simp only [Pool.run] at hrun
    cases hstep : p.step f m with
    | none => simp [hstep] at hrun
    | some p₁ =>
      simp only [hstep] at hrun
      have h1 := ih p₁ p' hrun
      have h2 := measure_step f p p₁ m hstep
      simp only [List.length_cons]
      omega

theorem run_workers_length {S : Type} (f : S → Option Error) :
    ∀ (schedule : List Move) (p p' : Pool S), Pool.run f p schedule = some p' →
      p'.workers.length = p.workers.length := by
  intro schedule
  induction schedule with
  | nil =>
    intro p p' hrun
    simp only [Pool.run, Option.some.injEq] at hrun
    rw [hrun]
  | cons m rest ih =>
    intro p p' hrun
    simp only [Pool.run] at hrun
    cases hstep : p.step f m with
    | none => simp [hstep] at hrun
    | some p₁ =>
      simp only [hstep] at hrun
      rw [ih p₁ p' hrun, step_workers_length f p p₁ m hstep]

theorem pending_sum_of_receiving {S : Type} :
    ∀ (l : List (Worker S)), (∀ w ∈ l, w = Worker.receiving) →
      (l.map Worker.pending).sum = 0 := by
  intro l
  induction l with
  | nil => intro _; rfl
  | cons a rest ih =>
    intro hall
    have ha : a = Worker.receiving := hall a (List.mem_cons_self a rest)
    have hrest := ih (fun w hw => hall w (List.mem_cons_of_mem a hw))
    simp [ha, hrest, Worker.pending]

/-- While the caller selects and there is a worker, some goroutine has a move: the
execution is not stuck. -/
theorem exists_step {S : Type} (f : S → Option Error) (q : List S) (p : Pool S) (done : Nat)
    (hcaller : p.caller = Caller.selecting done) (hinv : Pool.Inv f q p done)
    (hworkers : 1 ≤ p.workers.length) : ∃ m p', p.step f m = some p' := by
  by_cases hzero : p.doneCh = 0
  · by_cases hall : ∀ w ∈ p.workers, w = Worker.receiving
    · have hsum := pending_sum_of_receiving p.workers hall
      have hpl := hinv.placed
      have hlt := hinv.done_lt
      cases hch : p.ch with
      | nil => rw [hch] at hpl; simp at hpl; omega
      | cons s rest =>
        have hlen : 0 < p.workers.length := by omega
        have hget : p.workers[0]? = some Worker.receiving := by
          rw [List.getElem?_eq_getElem hlen]
          exact congrArg some (hall p.workers[0] (List.getElem_mem hlen))
        refine ⟨Move.worker 0, ?_⟩
        simp only [Pool.step, hcaller, Pool.stepWorker, List.get?_eq_getElem?, hget, hch]
        exact ⟨_, rfl⟩
    · have hex : ∃ w ∈ p.workers, w ≠ Worker.receiving := by
        by_contra hno
        exact hall (fun w hw => by
          by_contra hne
          exact hno ⟨w, hw, hne⟩)
      obtain ⟨w, hw, hne⟩ := hex
      obtain ⟨i, hget⟩ := List.mem_iff_getElem?.mp hw
      have hsound := hinv.held w hw
      cases w with
      | receiving => exact absurd rfl hne
      | calling s =>
        cases hf : f s with
        | some err =>
          refine ⟨Move.worker i, ?_⟩
          simp only [Pool.step, hcaller, Pool.stepWorker, List.get?_eq_getElem?, hget, hf]
          exact ⟨_, rfl⟩
        | none =>
          refine ⟨Move.worker i, ?_⟩
          simp only [Pool.step, hcaller, Pool.stepWorker, List.get?_eq_getElem?, hget, hf]
          exact ⟨_, rfl⟩
      | sendingErr err =>
        refine ⟨Move.worker i, ?_⟩
        simp only [Pool.step, hcaller, Pool.stepWorker, List.get?_eq_getElem?, hget]
        exact ⟨_, rfl⟩
      | sendingDone =>
        have hroom : p.doneCh < p.cap := by have := hinv.cap_pos; omega
        refine ⟨Move.worker i, ?_⟩
        simp only [Pool.step, hcaller, Pool.stepWorker, List.get?_eq_getElem?, hget, hroom,
          if_true]
        exact ⟨_, rfl⟩
      | exited => exact absurd hsound (by simp [Worker.Sound])
  · by_cases hlast : done = p.count - 1
    · refine ⟨Move.caller, ?_⟩
      simp only [Pool.step, hcaller, Pool.stepCaller, hzero, if_false, hlast, if_true]
      exact ⟨_, rfl⟩
    · refine ⟨Move.caller, ?_⟩
      simp only [Pool.step, hcaller, Pool.stepCaller, hzero, if_false, hlast]
      exact ⟨_, rfl⟩

/-- From a pool with a worker, some execution brings `Publish` to its return. -/
theorem exists_return {S : Type} (f : S → Option Error) (q : List S) :
    ∀ (n : Nat) (p : Pool S), Pool.Good f q p → p.measure ≤ n → 1 ≤ p.workers.length →
      ∃ schedule p' r, Pool.run f p schedule = some p' ∧ p'.caller = Caller.returned r := by
  intro n
  induction n with
  | zero =>
    intro p hgood hmeasure hworkers
    cases hcaller : p.caller with
    | returned r => exact ⟨[], p, r, rfl, hcaller⟩
    | selecting done =>
      have hinv : Pool.Inv f q p done := by simpa [Pool.Good, hcaller] using hgood
      obtain ⟨m, p₁, hstep⟩ := exists_step f q p done hcaller hinv hworkers
      have := measure_step f p p₁ m hstep
      omega
  | succ n ih =>
    intro p hgood hmeasure hworkers
    cases hcaller : p.caller with
    | returned r => exact ⟨[], p, r, rfl, hcaller⟩
    | selecting done =>
      have hinv : Pool.Inv f q p done := by simpa [Pool.Good, hcaller] using hgood
      obtain ⟨m, p₁, hstep⟩ := exists_step f q p done hcaller hinv hworkers
      have hlt := measure_step f p p₁ m hstep
      have hlen := step_workers_length f p p₁ m hstep
      obtain ⟨schedule, p', r, hrun, hret⟩ :=
        ih p₁ (good_step f q p p₁ m hgood hstep) (by omega) (by omega)
      exact ⟨m :: schedule, p', r, by simp only [Pool.run, hstep]; exact hrun, hret⟩

/-- The pool that `Publish` starts its workers in has what holds of a pool. -/
theorem good_startWorkers {ID S : Type} (f : S → Option Error) (h : Hub ID S) (q : List S)
    (hcap : 1 ≤ h.subs.length) (hq : 1 ≤ q.length) :
    Pool.Good f q (h.startWorkers q q.length) ∧
      (h.startWorkers q q.length).measure = 4 * q.length := by
  have hrec : ∀ w ∈ List.replicate h.concurrency.toNat (Worker.receiving : Worker S),
      w = Worker.receiving := fun w hw => (List.mem_replicate.mp hw).2
  have hpend := pending_sum_of_receiving _ hrec
  refine ⟨?_, ?_⟩
  · refine good_of_selecting f q _ 0 rfl ⟨rfl, hcap, hq, ?_, ?_, fun s hs => hs, ?_⟩
    · show q.length + (List.map Worker.pending
        (List.replicate h.concurrency.toNat Worker.receiving)).sum + 0 + 0 = q.length
      omega
    · show failures f q + (List.map (Worker.failing f)
        (List.replicate h.concurrency.toNat Worker.receiving)).sum = failures f q
      have := failing_le_pending f (List.replicate h.concurrency.toNat Worker.receiving)
      omega
    · intro w hw
      rw [hrec w hw]
      trivial
  · show 4 * q.length + (List.map Worker.weight
      (List.replicate h.concurrency.toNat Worker.receiving)).sum + 0 = 4 * q.length
    simp [Worker.weight]

theorem failures_pos_of_mem {S : Type} (f : S → Option Error) (q : List S) (x : S)
    (hx : x ∈ q) (hfx : f x ≠ none) : 0 < failures f q := by
  unfold failures
  apply List.countP_pos_iff.mpr
  exact ⟨x, hx, by simpa [Option.isSome_iff_ne_none] using hfx⟩

theorem length_flatten_visit {ID S : Type} (visit : List (ID × List S)) :
    (visit.map Prod.snd).flatten.length = (visit.map (fun p => p.2.length)).sum := by
  induction visit with
  | nil => rfl
  | cons p rest ih => simp [ih]

section PublishWorkersClaims

/-- C17, the claim as stated, on the code.  `New(Concurrency(0))` stores the concurrency
zero.  With `subscriber1` subscribed and an action that fails on it, `Publish` gets
through its first loop and then starts no worker: the caller stands in its `select` with
nothing to send to either channel, no goroutine has a move, and `Publish` does not
return. -/
theorem Publish_without_worker_eval :
    (subscribeEach hubNoWorker [subscriber1]).1.concurrency = 0 ∧
      (subscribeEach hubNoWorker [subscriber1]).1.subs = [("id1", [subscriber1])] ∧
      actionErr subscriber1 = some (Error.new "error") ∧
      (subscribeEach hubNoWorker [subscriber1]).1.publishStart [("id1", [subscriber1])]
        = PublishStart.dispatch [subscriber1] 1 ∧
      ((subscribeEach hubNoWorker [subscriber1]).1.startWorkers [subscriber1] 1).workers = [] ∧
      ((subscribeEach hubNoWorker [subscriber1]).1.startWorkers [subscriber1] 1).caller
        = Caller.selecting 0 ∧
      ∀ (m : Move),
        ((subscribeEach hubNoWorker [subscriber1]).1.startWorkers [subscriber1] 1).step
          actionErr m = none := by
  refine ⟨by decide, by decide, rfl, by decide, by decide, by decide, ?_⟩
  intro m
  cases m <;> rfl

/-- C17, amended.  On a Hub with a concurrency of at least one and no more registered
entries than identities present, when `f` fails on at least one registered subscriber,
`Publish(f)`, in whatever order the map yields its entries and the scheduler takes the
goroutines, starts its workers on all the handles and returns: some execution ends with
its return, no execution has more than `4 * N` moves, and while it has not returned some
goroutine has a move.  What it returns is never `nil` but one of the errors `f` gives on
a registered subscriber, and is `e` when `f` fails on one subscriber only, with `e`. -/
theorem Publish_returns_error {ID S : Type} (h : Hub ID S) (visit : List (ID × List S))
    (f : S → Option Error) (hperm : visit.Perm h.subs) (hconc : 1 ≤ h.concurrency)
    (hfit : h.total ≤ h.queueCap) (hfail : ∃ q ∈ h.subs, ∃ x ∈ q.2, f x ≠ none) :
    h.publishStart visit = PublishStart.dispatch (visit.map Prod.snd).flatten h.total ∧
      (∃ schedule p e,
        (h.startWorkers (visit.map Prod.snd).flatten h.total).run f schedule = some p ∧
          p.caller = Caller.returned (some e)) ∧
      ∀ (schedule : List Move) (p : Pool S),
        (h.startWorkers (visit.map Prod.snd).flatten h.total).run f schedule = some p →
        schedule.length ≤ 4 * h.total ∧
          (∀ done, p.caller = Caller.selecting done → ∃ m p', p.step f m = some p') ∧
          (∀ r, p.caller = Caller.returned r →
            ∃ e, r = some e ∧ ∃ q ∈ h.subs, ∃ x ∈ q.2, f x = some e) ∧
          (∀ x e, f x = some e → (∀ q ∈ h.subs, ∀ y ∈ q.2, f y ≠ none → y = x) →
            ∀ r, p.caller = Caller.returned r → r = some e) := by
  obtain ⟨q₀, hq₀, x₀, hx₀, hfx₀⟩ := hfail
  have hmem₀ : x₀ ∈ (visit.map Prod.snd).flatten :=
    List.mem_flatten.mpr
      ⟨q₀.2, List.mem_map.mpr ⟨q₀, hperm.mem_iff.mpr hq₀, rfl⟩, hx₀⟩
  have htot : h.total = (visit.map Prod.snd).flatten.length := by
    rw [length_flatten_visit]
    exact (total_of_perm visit h.subs hperm).symm
  have hpos : 1 ≤ (visit.map Prod.snd).flatten.length := List.length_pos_of_mem hmem₀
  have hcap : 1 ≤ h.subs.length := by
    have : h.total ≤ h.subs.length := hfit
    omega
  have hstart := publishStart_dispatch h visit hperm hfit (by omega)
  rw [htot] at hstart ⊢
  obtain ⟨hgood, hmeasure⟩ := good_startWorkers f h (visit.map Prod.snd).flatten hcap hpos
  have hworkers : 1 ≤ (h.startWorkers (visit.map Prod.snd).flatten
      (visit.map Prod.snd).flatten.length).workers.length := by
    show 1 ≤ (List.replicate h.concurrency.toNat (Worker.receiving : Worker S)).length
    rw [List.length_replicate]
    omega
  have hfpos := failures_pos_of_mem f _ x₀ hmem₀ hfx₀
  have hret : ∀ (p : Pool S), Pool.Good f (visit.map Prod.snd).flatten p →
      ∀ r, p.caller = Caller.returned r →
        ∃ e, r = some e ∧ ∃ q ∈ h.subs, ∃ x ∈ q.2, f x = some e := by
    intro p hg r hr
    unfold Pool.Good at hg
    rw [hr] at hg
    cases r with
    | none => have := hg.1 rfl; omega
    | some e =>
      obtain ⟨s, hs, hfs⟩ := hg.2 e rfl
      obtain ⟨q, hq, hsq⟩ := mem_entry_of_mem_flatten visit h.subs hperm s hs
      exact ⟨e, rfl, q, hq, s, hsq, hfs⟩
  refine ⟨hstart, ?_, ?_⟩
  · obtain ⟨schedule, p, r, hrun, hr⟩ := exists_return f _ _ _ hgood (Nat.le_refl _) hworkers
    obtain ⟨e, he, _⟩ := hret p (good_run f _ schedule _ p hgood hrun) r hr
    exact ⟨schedule, p, e, hrun, he ▸ hr⟩
  · intro schedule p hrun
    have hg := good_run f _ schedule _ p hgood hrun
    refine ⟨?_, ?_, hret p hg, ?_⟩
    · have := run_length_le f schedule _ p hrun
      omega
    · intro done hsel
      have hinv : Pool.Inv f (visit.map Prod.snd).flatten p done := by
        simpa [Pool.Good, hsel] using hg
      exact exists_step f _ p done hsel hinv
        (by rw [run_workers_length f schedule _ p hrun]; exact hworkers)
    · intro x e hfx huniq r hr
      obtain ⟨e', he', q, hq, y, hy, hfy⟩ := hret p hg r hr
      have hyx : y = x := huniq q hq y hy (by rw [hfy]; simp)
      rw [hyx, hfx] at hfy
      rw [he']
      exact hfy.symm

/-- C17, amended, on `TestPublish`, lines 128 to 133: a default Hub, of concurrency 5,
with `subscriber1`, and an action that fails.  `Publish` returns that error in every
execution, as in the one where the first worker takes the handle, calls the action and
sends the error. -/
theorem Publish_returns_error_witness :
    (subscribeEach hubDefault [subscriber1]).1.publishStart [("id1", [subscriber1])]
        = PublishStart.dispatch [subscriber1] 1 ∧
      (∀ (schedule : List Move) (p : Pool stabSubscriber),
        ((subscribeEach hubDefault [subscriber1]).1.startWorkers [subscriber1] 1).run
            actionErr schedule = some p →
          ∀ r, p.caller = Caller.returned r → r = some (Error.new "error")) ∧
      (((subscribeEach hubDefault [subscriber1]).1.startWorkers [subscriber1] 1).run
          actionErr [Move.worker 0, Move.worker 0, Move.worker 0]).map (fun p => p.caller)
        = some (Caller.returned (some (Error.new "error"))) :=
  have hthm := Publish_returns_error (subscribeEach hubDefault [subscriber1]).1
    [("id1", [subscriber1])] actionErr (by decide) (by decide) (by decide)
    ⟨("id1", [subscriber1]), by decide, subscriber1, by decide, by decide⟩
  ⟨hthm.1,
    fun schedule p hrun =>
      (hthm.2.2 schedule p hrun).2.2.2 subscriber1 (Error.new "error") rfl (by decide),
    by decide⟩

end PublishWorkersClaims

end Broadcast
